import Mathlib

/-!
Verification of the example callback scripts of rocksdb-cli and of the
Transform Pipeline Engine specified for them.

The four Python files under src/scripts/transform/ are shallowly embedded
here.  Python strings are Lean strings (sequences of Unicode scalar
values); `json.loads` and `json.dumps` of the CPython standard library are
embedded as executable Lean functions `loads` and `dumps` below, and each
script's `should_process` / `transform_value` is translated statement by
statement, with every Python exception path made explicit (the scripts all
use a bare `except:`, so a raised exception inside the `try` block turns
into the documented fallback result).

Modelling notes for the json embedding:
* Python floats are modelled as exact decimal numbers `m * 10 ^ (-k)`
  (constructor `Json.flt m k`, kept in the normal form `k = 0 ∨ m % 10 ≠ 0`).
  CPython parses a decimal literal to the nearest IEEE-754 double and prints
  floats with `repr`; the embedding is exact where the double would round,
  and prints the exact decimal expansion.  On inputs whose decimal value is
  representable (every input used in the concrete theorems below) the two
  agree.
* `json.loads` accepts the extensions `NaN`, `Infinity` and `-Infinity`;
  these are the constructors `Json.nan`, `Json.inf`, `Json.ninf`.  A huge
  exponent such as `1e999` overflows to `inf` in CPython but stays exact
  here.
* Lean `Char` cannot hold a lone UTF-16 surrogate, so the embedded parser
  rejects a `\uXXXX` escape that denotes a lone surrogate, which CPython
  would accept.
* CPython `str.upper()` applies the full Unicode uppercase mapping; the
  embedding `pyUpper` applies `Char.toUpper`, the basic-latin restriction
  of that mapping.  Both mappings are idempotent, which is the only
  property the theorems below use.
* The parser is fuel-indexed; `loads` supplies `2 * length + 4` fuel, which
  dominates the parser's consumption of at most two fuel units per input
  character, so the fuel never runs out on an input the grammar accepts.
-/

set_option maxHeartbeats 1600000
set_option linter.unusedVariables false

/-- JSON values as produced by CPython `json.loads`: `null`, booleans,
ints (`num`), floats (`flt m k`, denoting `m * 10 ^ (-k)`), the non-finite
floats, strings, arrays, and insertion-ordered objects. -/
inductive Json where
  | null : Json
  | bool (b : Bool) : Json
  | num (n : Int) : Json
  | flt (m : Int) (k : Nat) : Json
  | nan : Json
  | inf : Json
  | ninf : Json
  | str (s : String) : Json
  | arr (xs : List Json) : Json
  | obj (kvs : List (String × Json)) : Json

/-- First value bound to `key`, as Python dict lookup (keys are unique in
any list built by the parser or by `insertKV`). -/
def lookupKV : List (String × Json) → String → Option Json
  | [], _ => none
  | (k, v) :: t, key => if k = key then some v else lookupKV t key

/-- Python `key in dict`. -/
def containsKV (kvs : List (String × Json)) (key : String) : Bool :=
  (lookupKV kvs key).isSome

/-- Python `dict[key] = v`: replace in place when the key exists (the key
keeps its original insertion position), append otherwise. -/
def insertKV : List (String × Json) → String → Json → List (String × Json)
  | [], key, v => [(key, v)]
  | (k, w) :: t, key, v => if k = key then (k, v) :: t else (k, w) :: insertKV t key v

/-- The keys of an object, in insertion order. -/
def keysOf (kvs : List (String × Json)) : List String := kvs.map Prod.fst

/-- The whitespace characters of the JSON grammar (also what
`json.decoder.WHITESPACE` skips). -/
def isWsChar (c : Char) : Bool := c = ' ' || c = '\t' || c = '\n' || c = '\r'

/-- Drop leading JSON whitespace. -/
def skipWs : List Char → List Char
  | [] => []
  | c :: t => if isWsChar c then skipWs t else c :: t

/-- The decimal digit character for `d < 10`. -/
def digitChar (d : Nat) : Char := Char.ofNat (48 + d)

/-- Decimal digits of `n`, most significant first, as CPython prints a
non-negative int. -/
def printNat (n : Nat) : List Char :=
  if n = 0 then ['0'] else ((Nat.digits 10 n).reverse).map digitChar

/-- CPython rendering of an int. -/
def printInt (n : Int) : List Char :=
  if n < 0 then '-' :: printNat n.natAbs else printNat n.natAbs

/-- Lowercase hex digit for `d < 16` (CPython emits lowercase in `\uXXXX`). -/
def hexDig (d : Nat) : Char := if d < 10 then Char.ofNat (48 + d) else Char.ofNat (87 + d)

/-- Four lowercase hex digits of `n < 65536`. -/
def hex4 (n : Nat) : List Char :=
  [hexDig (n / 4096 % 16), hexDig (n / 256 % 16), hexDig (n / 16 % 16), hexDig (n % 16)]

/-- How `json.dumps` (with its default `ensure_ascii=True`) renders one
character of a string: the two-character escapes for quote, backslash and
the five control shorthands, printable ASCII verbatim, `\uXXXX` for every
other character of the basic plane, and a surrogate pair of escapes for an
astral character. -/
def escChar (c : Char) : List Char :=
  if c = '"' then ['\\', '"']
  else if c = '\\' then ['\\', '\\']
  else if c = '\n' then ['\\', 'n']
  else if c = '\r' then ['\\', 'r']
  else if c = '\t' then ['\\', 't']
  else if c.toNat = 8 then ['\\', 'b']
  else if c.toNat = 12 then ['\\', 'f']
  else if 32 ≤ c.toNat ∧ c.toNat ≤ 126 then [c]
  else if c.toNat < 65536 then '\\' :: 'u' :: hex4 c.toNat
  else
    ('\\' :: 'u' :: hex4 (55296 + (c.toNat - 65536) / 1024)) ++
      ('\\' :: 'u' :: hex4 (56320 + (c.toNat - 65536) % 1024))

/-- `escChar` over a character list. -/
def escChars : List Char → List Char
  | [] => []
  | c :: t => escChar c ++ escChars t

/-- A JSON string literal for `s`, as `json.dumps` prints it. -/
def escStr (s : String) : List Char := '"' :: (escChars s.data ++ ['"'])

/-- Strip factors of ten: `strip10 m k` rewrites `m * 10 ^ (-k)` to its
normal form with the smallest exponent.  This is how the embedding
identifies the distinct decimal spellings that CPython parses to one and
the same float (for example `10.0`, `1e1` and `100e-1`). -/
def strip10 : Int → Nat → Int × Nat
  | m, 0 => (m, 0)
  | m, k + 1 => if m % 10 = 0 then strip10 (m / 10) k else (m, k + 1)

/-- Left-pad with zeros to `k` characters. -/
def padZeros (k : Nat) (l : List Char) : List Char :=
  List.replicate (k - l.length) '0' ++ l

/-- Decimal rendering of the float `m * 10 ^ (-k)`: integer part, point,
exactly `k` fraction digits (CPython always prints at least one fraction
digit, whence the `.0` when `k = 0`). -/
def printFlt (m : Int) (k : Nat) : List Char :=
  (if m < 0 then ['-'] else []) ++
    (printNat (m.natAbs / 10 ^ k) ++
      ('.' :: (if k = 0 then ['0'] else padZeros k (printNat (m.natAbs % 10 ^ k)))))

/-- Interleave a separator, as `", ".join`. -/
def joinSep (sep : List Char) : List (List Char) → List Char
  | [] => []
  | [x] => x
  | x :: y :: t => x ++ (sep ++ joinSep sep (y :: t))

/-- Embedding of `json.dumps` with CPython's default options: separators
`", "` and `": "`, `ensure_ascii=True`, no indent, `allow_nan=True`. -/
def dumpsChars : Json → List Char
  | Json.null => ['n', 'u', 'l', 'l']
  | Json.bool true => ['t', 'r', 'u', 'e']
  | Json.bool false => ['f', 'a', 'l', 's', 'e']
  | Json.num n => printInt n
  | Json.flt m k => printFlt m k
  | Json.nan => ['N', 'a', 'N']
  | Json.inf => ['I', 'n', 'f', 'i', 'n', 'i', 't', 'y']
  | Json.ninf => ['-', 'I', 'n', 'f', 'i', 'n', 'i', 't', 'y']
  | Json.str s => escStr s
  | Json.arr xs =>
    '[' :: (joinSep [',', ' '] (xs.attach.map fun x => dumpsChars x.1) ++ [']'])
  | Json.obj kvs =>
    '\x7b' :: (joinSep [',', ' ']
      (kvs.attach.map fun p => escStr p.1.1 ++ (':' :: ' ' :: dumpsChars p.1.2)) ++ ['\x7d'])
termination_by j => sizeOf j
decreasing_by
  · have := List.sizeOf_lt_of_mem x.2
    simp only [Json.arr.sizeOf_spec]
    omega
  · have h1 := List.sizeOf_lt_of_mem p.2
    have h2 : sizeOf p.1.2 < sizeOf p.1 := by
      obtain ⟨a, b⟩ := p.1
      simp [Prod.mk.sizeOf_spec]
    simp only [Json.obj.sizeOf_spec]
    omega

/-- `json.dumps` as a string-valued function. -/
def dumps (j : Json) : String := ⟨dumpsChars j⟩

/-- Value of a hex digit character, case-insensitive as `int(s, 16)`. -/
def hexVal (c : Char) : Option Nat :=
  if 48 ≤ c.toNat ∧ c.toNat ≤ 57 then some (c.toNat - 48)
  else if 97 ≤ c.toNat ∧ c.toNat ≤ 102 then some (c.toNat - 87)
  else if 65 ≤ c.toNat ∧ c.toNat ≤ 70 then some (c.toNat - 55)
  else none

/-- Four hex digits, as in a `\uXXXX` escape. -/
def parseHex4 : List Char → Option (Nat × List Char)
  | a :: b :: c :: d :: r =>
    match hexVal a, hexVal b, hexVal c, hexVal d with
    | some x, some y, some z, some w => some (((x * 16 + y) * 16 + z) * 16 + w, r)
    | _, _, _, _ => none
  | _ => none

/-- Body of a JSON string literal (the input starts after the opening
quote): strict mode, so a raw control character is an error; the named
escapes and `\uXXXX` are decoded, and a surrogate-pair escape is combined
into one astral character.  CPython would keep a lone surrogate escape as a
lone surrogate code unit, which a Lean `Char` cannot hold, so that case is
rejected here (see the module comment). -/
def parseStrBody : Nat → List Char → Option (List Char × List Char)
  | 0, _ => none
  | _ + 1, [] => none
  | f + 1, c :: r =>
    if c = '"' then some ([], r)
    else if c = '\\' then
      match r with
      | [] => none
      | e :: r2 =>
        if e = '"' then (parseStrBody f r2).map fun p => ('"' :: p.1, p.2)
        else if e = '\\' then (parseStrBody f r2).map fun p => ('\\' :: p.1, p.2)
        else if e = '/' then (parseStrBody f r2).map fun p => ('/' :: p.1, p.2)
        else if e = 'b' then (parseStrBody f r2).map fun p => (Char.ofNat 8 :: p.1, p.2)
        else if e = 'f' then (parseStrBody f r2).map fun p => (Char.ofNat 12 :: p.1, p.2)
        else if e = 'n' then (parseStrBody f r2).map fun p => ('\n' :: p.1, p.2)
        else if e = 'r' then (parseStrBody f r2).map fun p => ('\r' :: p.1, p.2)
        else if e = 't' then (parseStrBody f r2).map fun p => ('\t' :: p.1, p.2)
        else if e = 'u' then
          match parseHex4 r2 with
          | none => none
          | some (n, r3) =>
            if 55296 ≤ n ∧ n ≤ 56319 then
              match r3 with
              | '\\' :: 'u' :: r4 =>
                match parseHex4 r4 with
                | none => none
                | some (n2, r5) =>
                  if 56320 ≤ n2 ∧ n2 ≤ 57343 then
                    (parseStrBody f r5).map fun p =>
                      (Char.ofNat (65536 + (n - 55296) * 1024 + (n2 - 56320)) :: p.1, p.2)
                  else none
              | _ => none
            else if 56320 ≤ n ∧ n ≤ 57343 then none
            else (parseStrBody f r3).map fun p => (Char.ofNat n :: p.1, p.2)
        else none
    else if c.toNat < 32 then none
    else (parseStrBody f r).map fun p => (c :: p.1, p.2)

/-- A string literal body with fuel from the input length (each step of
`parseStrBody` consumes at least one character, so this fuel suffices). -/
def parseStr (cs : List Char) : Option (List Char × List Char) :=
  parseStrBody (cs.length + 1) cs

/-- Greedy run of decimal digits: accumulated value, digit count, rest. -/
def parseDigitsAux : Nat → Nat → List Char → Nat × Nat × List Char
  | acc, cnt, [] => (acc, cnt, [])
  | acc, cnt, c :: r =>
    if 48 ≤ c.toNat ∧ c.toNat ≤ 57 then parseDigitsAux (acc * 10 + (c.toNat - 48)) (cnt + 1) r
    else (acc, cnt, c :: r)

/-- Expect a fixed literal, returning what follows it. -/
def dropLit : List Char → List Char → Option (List Char)
  | [], r => some r
  | _ :: _, [] => none
  | c :: t, x :: r => if x = c then dropLit t r else none

/-- Exponent part after the `e`/`E`: optional sign, then at least one
digit; returns (negative?, value, rest). -/
def parseExpDigits (cs : List Char) : Option (Bool × Nat × List Char) :=
  let p : Bool × List Char :=
    match cs with
    | '+' :: t => (false, t)
    | '-' :: t => (true, t)
    | _ => (false, cs)
  match parseDigitsAux 0 0 p.2 with
  | (e, ecnt, r) => if ecnt = 0 then none else some (p.1, e, r)

/-- Assemble a float from sign, integer digits `i`, fraction digits `f`
(`fcnt` of them) and signed exponent, normalizing with `strip10` exactly as
distinct decimal spellings collapse to one CPython float. -/
def mkFlt (neg : Bool) (i fr fcnt : Nat) (esign : Bool) (e : Nat) : Json :=
  let mAbs : Nat := i * 10 ^ fcnt + fr
  let m : Int := if neg then -(mAbs : Int) else (mAbs : Int)
  let eInt : Int := (if esign then -(e : Int) else (e : Int)) - (fcnt : Int)
  if 0 ≤ eInt then Json.flt (m * 10 ^ eInt.toNat) 0
  else
    let p := strip10 m (-eInt).toNat
    Json.flt p.1 p.2

/-- Finish a numeric literal after its integer (and fraction) digits:
an optional exponent part decides between `num` and `flt`. -/
def finishNumber (neg : Bool) (i fr fcnt : Nat) (hasFrac : Bool) (r : List Char) :
    Option (Json × List Char) :=
  match r with
  | 'e' :: t | 'E' :: t =>
    match parseExpDigits t with
    | none => none
    | some (esign, e, r2) => some (mkFlt neg i fr fcnt esign e, r2)
  | _ =>
    if hasFrac then some (mkFlt neg i fr fcnt false 0, r)
    else some (Json.num (if neg then -(i : Int) else (i : Int)), r)

/-- Digits of a numeric literal after the optional minus sign, following
the regular expression of `json.scanner`: `(0|[1-9]\d*)(\.\d+)?([eE][-+]?\d+)?`
(a leading zero, a point with no digit or an `e` with no digit is an
error). -/
def parseNumCore (neg : Bool) (cs : List Char) : Option (Json × List Char) :=
  match parseDigitsAux 0 0 cs with
  | (i, icnt, r1) =>
    if icnt = 0 then none
    else if 2 ≤ icnt ∧ cs.head? = some '0' then none
    else
      match r1 with
      | '.' :: t1 =>
        match parseDigitsAux 0 0 t1 with
        | (fr, fcnt, r2) => if fcnt = 0 then none else finishNumber neg i fr fcnt true r2
      | _ => finishNumber neg i 0 0 false r1

/-- A numeric literal, or the literal `-Infinity` (which `json.scanner`
checks for where a number may stand). -/
def parseNumber (cs : List Char) : Option (Json × List Char) :=
  match cs with
  | '-' :: cs1 =>
    match dropLit ['I', 'n', 'f', 'i', 'n', 'i', 't', 'y'] cs1 with
    | some r => some (Json.ninf, r)
    | none => parseNumCore true cs1
  | _ => parseNumCore false cs

/-- Build a Python dict from parsed key/value pairs: sequential insertion,
so a duplicate key keeps its first position with its last value. -/
def buildObj (ps : List (String × Json)) : List (String × Json) :=
  ps.foldl (fun acc p => insertKV acc p.1 p.2) []

mutual

/-- One JSON value, strict grammar of `json.loads` (plus the `NaN`,
`Infinity`, `-Infinity` extensions); the input starts at the value's first
character.  Fuel-indexed; every recursive call decreases the fuel. -/
def parseVal : Nat → List Char → Option (Json × List Char)
  | 0, _ => none
  | f + 1, cs =>
    match cs with
    | [] => none
    | '\x7b' :: r =>
      match skipWs r with
      | '\x7d' :: r2 => some (Json.obj [], r2)
      | cs2 => (parseMembers f cs2).map fun p => (Json.obj (buildObj p.1), p.2)
    | '[' :: r =>
      match skipWs r with
      | ']' :: r2 => some (Json.arr [], r2)
      | cs2 => (parseElems f cs2).map fun p => (Json.arr p.1, p.2)
    | '"' :: r => (parseStr r).map fun p => (Json.str ⟨p.1⟩, p.2)
    | 't' :: r => (dropLit ['r', 'u', 'e'] r).map fun r2 => (Json.bool true, r2)
    | 'f' :: r => (dropLit ['a', 'l', 's', 'e'] r).map fun r2 => (Json.bool false, r2)
    | 'n' :: r => (dropLit ['u', 'l', 'l'] r).map fun r2 => (Json.null, r2)
    | 'N' :: r => (dropLit ['a', 'N'] r).map fun r2 => (Json.nan, r2)
    | 'I' :: r => (dropLit ['n', 'f', 'i', 'n', 'i', 't', 'y'] r).map fun r2 => (Json.inf, r2)
    | c :: r =>
      if c = '-' ∨ (48 ≤ c.toNat ∧ c.toNat ≤ 57) then parseNumber (c :: r) else none

/-- Elements of a non-empty array, starting at the first element. -/
def parseElems : Nat → List Char → Option (List Json × List Char)
  | 0, _ => none
  | f + 1, cs =>
    match parseVal f cs with
    | none => none
    | some (v, r) =>
      match skipWs r with
      | ',' :: r2 => (parseElems f (skipWs r2)).map fun p => (v :: p.1, p.2)
      | ']' :: r2 => some ([v], r2)
      | _ => none

/-- Members of a non-empty object, starting at the first key's quote. -/
def parseMembers : Nat → List Char → Option (List (String × Json) × List Char)
  | 0, _ => none
  | f + 1, cs =>
    match cs with
    | '"' :: r =>
      match parseStr r with
      | none => none
      | some (k, r1) =>
        match skipWs r1 with
        | ':' :: r2 =>
          match parseVal f (skipWs r2) with
          | none => none
          | some (v, r3) =>
            match skipWs r3 with
            | ',' :: r4 => (parseMembers f (skipWs r4)).map fun p => ((⟨k⟩, v) :: p.1, p.2)
            | '\x7d' :: r4 => some ([(⟨k⟩, v)], r4)
            | _ => none
        | _ => none
    | _ => none

end

/-- Embedding of `json.loads`: skip leading whitespace, parse one value,
require only whitespace after it.  The fuel `2 * length + 4` dominates the
parser's worst case of two fuel units per input character. -/
def loads (s : String) : Option Json :=
  match parseVal (2 * (skipWs s.data).length + 4) (skipWs s.data) with
  | some (j, r) => if skipWs r = [] then some j else none
  | none => none

/-- Does the character list start with the pattern? -/
def startsWithL : List Char → List Char → Bool
  | _, [] => true
  | [], _ :: _ => false
  | h :: t, a :: b => h == a && startsWithL t b

/-- Does the character list end with the pattern? -/
def endsWithL (l pat : List Char) : Bool := startsWithL l.reverse pat.reverse

/-- Python substring containment `pat in s`. -/
def containsSub : List Char → List Char → Bool
  | [], pat => pat.isEmpty
  | h :: t, pat => startsWithL (h :: t) pat || containsSub t pat

/-- Python `needle in data` on a json value: key membership for a dict,
element equality for a list, substring test for a string; a `TypeError`
(`none`) for every other value. -/
def pyContains (d : Json) (needle : String) : Option Bool :=
  match d with
  | Json.obj kvs => some (containsKV kvs needle)
  | Json.arr xs =>
    some (xs.any fun x => match x with | Json.str s => s == needle | _ => false)
  | Json.str s => some (containsSub s.data needle.data)
  | _ => none

/-- Python `data[key]` with a string key: dict lookup; everything else
raises (`TypeError` for a list or string index, attribute access on the
rest), collapsed to `none`. -/
def pyGetItem (d : Json) (key : String) : Option Json :=
  match d with
  | Json.obj kvs => lookupKV kvs key
  | _ => none

/-- Python `x > b` for an int literal `b`: defined for ints, floats and
bools (`True` counts as 1), `none` (`TypeError`) otherwise.  The float
`m * 10 ^ (-k)` exceeds `b` exactly when `b * 10 ^ k < m`. -/
def pyGtInt (j : Json) (b : Int) : Option Bool :=
  match j with
  | Json.num n => some (decide (b < n))
  | Json.flt m k => some (decide (b * 10 ^ k < m))
  | Json.bool v => some (decide (b < (if v then 1 else 0 : Int)))
  | Json.nan => some false
  | Json.inf => some true
  | Json.ninf => some false
  | _ => none

/-- Python `x < b` for an int literal `b`; see `pyGtInt`. -/
def pyLtInt (j : Json) (b : Int) : Option Bool :=
  match j with
  | Json.num n => some (decide (n < b))
  | Json.flt m k => some (decide (m < b * 10 ^ k))
  | Json.bool v => some (decide ((if v then 1 else 0 : Int) < b))
  | Json.nan => some false
  | Json.inf => some false
  | Json.ninf => some true
  | _ => none

/-- Embedding of Python `str.upper()` (basic-latin case mapping; see the
module comment). -/
def pyUpper (s : String) : String := ⟨s.data.map Char.toUpper⟩

namespace add_timestamp

/-- Embedding of `transform_value` from src/scripts/transform/add_timestamp.py.
The script's one impure input, the string `datetime.utcnow().isoformat()`,
enters as the explicit parameter `now_iso`; the script appends `"Z"` to it.
On a dict: set `processed_at` and `transform_version` and re-serialize; on
any other parsed value the item assignment raises and the bare `except:`
returns `value` unchanged; on invalid JSON, `value` unchanged. -/
def transform_value (now_iso : String) (key value : String) : String :=
  match loads value with
  | some (Json.obj kvs) =>
    dumps (Json.obj (insertKV (insertKV kvs "processed_at" (Json.str (now_iso ++ "Z")))
      "transform_version" (Json.str "1.0")))
  | some _ => value
  | none => value

end add_timestamp

namespace filter_by_age

/-- Embedding of `should_process` from src/scripts/transform/filter_by_age.py:
`'age' in data and data['age'] > 30`, with every raising path (invalid
JSON, non-container `in`, non-dict subscript, unordered comparison)
returning `False` through the bare `except:`. -/
def should_process (key value : String) : Bool :=
  match loads value with
  | none => false
  | some d =>
    match pyContains d "age" with
    | none => false
    | some false => false
    | some true =>
      match pyGetItem d "age" with
      | none => false
      | some j =>
        match pyGtInt j 30 with
        | none => false
        | some b => b

/-- Embedding of `transform_value` from src/scripts/transform/filter_by_age.py:
`age = data.get('age', 0)`, then the `< 25` / `< 35` ladder chooses the
`age_group` label; a raising path (invalid JSON, non-dict `.get`,
unordered comparison) returns `value` unchanged. -/
def transform_value (key value : String) : String :=
  match loads value with
  | some (Json.obj kvs) =>
    let age := (lookupKV kvs "age").getD (Json.num 0)
    match pyLtInt age 25 with
    | none => value
    | some true => dumps (Json.obj (insertKV kvs "age_group" (Json.str "young")))
    | some false =>
      match pyLtInt age 35 with
      | none => value
      | some true => dumps (Json.obj (insertKV kvs "age_group" (Json.str "middle")))
      | some false => dumps (Json.obj (insertKV kvs "age_group" (Json.str "senior")))
  | some _ => value
  | none => value

end filter_by_age

namespace flatten_nested_json

/-- The guard of src/scripts/transform/flatten_nested_json.py for a string
field: does it look like a JSON object or array? -/
def looksJson (s : String) : Bool :=
  (startsWithL s.data ['\x7b'] && endsWithL s.data ['\x7d']) ||
    (startsWithL s.data ['['] && endsWithL s.data [']'])

/-- One field of the flatten transform: a string field that looks like
JSON and parses is replaced by its parse, anything else is kept. -/
def flattenField : Json → Json
  | Json.str s =>
    if looksJson s then
      match loads s with
      | some p => p
      | none => Json.str s
    else Json.str s
  | v => v

/-- Embedding of `transform_value` from
src/scripts/transform/flatten_nested_json.py: on a dict, rewrite each field
with `flattenField` (in-place assignment keeps the key order) and
re-serialize; on any other parsed value `.items()` raises and `value` is
returned unchanged; on invalid JSON, `value` unchanged. -/
def transform_value (key value : String) : String :=
  match loads value with
  | some (Json.obj kvs) => dumps (Json.obj (kvs.map fun p => (p.1, flattenField p.2)))
  | some _ => value
  | none => value

/-- Embedding of `should_process` from
src/scripts/transform/flatten_nested_json.py: does some field hold a string
starting with a brace or bracket? -/
def should_process (key value : String) : Bool :=
  match loads value with
  | some (Json.obj kvs) =>
    kvs.any fun p =>
      match p.2 with
      | Json.str s => startsWithL s.data ['\x7b'] || startsWithL s.data ['[']
      | _ => false
  | some _ => false
  | none => false

end flatten_nested_json

namespace transform_uppercase_name

/-- Embedding of `transform_value` from
src/scripts/transform/transform_uppercase_name.py.  Mirrors the source line
by line: `'name' in data` (which for a non-container raises, returning
`value`); when the test is `False` the dict (or list, or string...) is
re-serialized; when `True`, `data['name'].upper()` needs a dict holding a
string, and any other shape raises, returning `value` unchanged. -/
def transform_value (key value : String) : String :=
  match loads value with
  | none => value
  | some d =>
    match pyContains d "name" with
    | none => value
    | some false => dumps d
    | some true =>
      match d with
      | Json.obj kvs =>
        match lookupKV kvs "name" with
        | some (Json.str s) => dumps (Json.obj (insertKV kvs "name" (Json.str (pyUpper s))))
        | some _ => value
        | none => value
      | _ => value

/-- Embedding of `should_process` from
src/scripts/transform/transform_uppercase_name.py: `'name' in data`, with a
raising `in` (non-container data) returning `False`. -/
def should_process (key value : String) : Bool :=
  match loads value with
  | none => false
  | some d =>
    match pyContains d "name" with
    | none => false
    | some b => b

end transform_uppercase_name

/-- Modelled from the spec: the per-record outcome of the Transform
Pipeline Engine (§3 Data model, "Decision"); the engine itself is not part
of src/, only its example callbacks are. -/
inductive Decision where
  | skipped : Decision
  | transformed : Decision
  | failed : Decision
  | unchanged : Decision
deriving DecidableEq

/-- Modelled from the spec: the JobReport aggregate (§3), with the
`unchanged` counter that the §8 counter identity mentions. -/
structure JobReport where
  scanned : Nat
  skipped : Nat
  transformed : Nat
  failed : Nat
  unchanged : Nat
  written : Nat
  failures : List (String × String)

/-- Modelled from the spec: the callback host capability (§6) — an
optional predicate and a transform, each of which may raise (the `Except`
error carries the message the ErrorCollector records). -/
structure Callbacks where
  predicate : Option (String → String → Except String Bool)
  transform : String → String → Except String String

/-- The report of a job before any record is scanned. -/
def emptyReport : JobReport := ⟨0, 0, 0, 0, 0, 0, []⟩

/-- Bump the report for one decided record (real run: a Transformed record
is also counted written, since every staged write is committed at drain
in a completed job). -/
def addDecision (rep : JobReport) (k : String) (d : Decision) (err : Option String) :
    JobReport :=
  { scanned := rep.scanned + 1
    skipped := rep.skipped + (if d = Decision.skipped then 1 else 0)
    transformed := rep.transformed + (if d = Decision.transformed then 1 else 0)
    failed := rep.failed + (if d = Decision.failed then 1 else 0)
    unchanged := rep.unchanged + (if d = Decision.unchanged then 1 else 0)
    written := rep.written + (if d = Decision.transformed then 1 else 0)
    failures := (match err with | some e => [(k, e)] | none => []) ++ rep.failures }

/-- Bump the report for one decided record of a dry run: identical to
`addDecision` except that nothing is ever written. -/
def addDecisionDry (rep : JobReport) (k : String) (d : Decision) (err : Option String) :
    JobReport :=
  { scanned := rep.scanned + 1
    skipped := rep.skipped + (if d = Decision.skipped then 1 else 0)
    transformed := rep.transformed + (if d = Decision.transformed then 1 else 0)
    failed := rep.failed + (if d = Decision.failed then 1 else 0)
    unchanged := rep.unchanged + (if d = Decision.unchanged then 1 else 0)
    written := rep.written
    failures := (match err with | some e => [(k, e)] | none => []) ++ rep.failures }

/-- What a completed real-mode job produces: the per-key decision sequence
in scan order, the final report, and the writes committed to the store (in
stage order; batch boundaries do not reorder them). -/
structure RealOutcome where
  decisions : List (String × Decision)
  report : JobReport
  writes : List (String × String)

/-- What a completed dry-run job produces: decisions, report, and the
(key, old value, new value) entries of the DryRunReporter. -/
structure DryOutcome where
  decisions : List (String × Decision)
  report : JobReport
  entries : List (String × String × String)

/-- Modelled from the spec: one real-mode pipeline run over the scanned
records (§4.4): per record the predicate is consulted (absent predicate
means accept; an error is a Failed decision), the transform is applied to
accepted records (an error is Failed; an equal result is Unchanged and not
staged), and a changed result is staged for write. -/
def runReal (cb : Callbacks) : List (String × String) → RealOutcome
  | [] => ⟨[], emptyReport, []⟩
  | (k, v) :: rs =>
    let step : Decision × Option String × Option String :=
      match cb.predicate with
      | some p =>
        match p k v with
        | Except.error e => (Decision.failed, none, some e)
        | Except.ok false => (Decision.skipped, none, none)
        | Except.ok true =>
          match cb.transform k v with
          | Except.error e => (Decision.failed, none, some e)
          | Except.ok nv =>
            if nv = v then (Decision.unchanged, none, none)
            else (Decision.transformed, some nv, none)
      | none =>
        match cb.transform k v with
        | Except.error e => (Decision.failed, none, some e)
        | Except.ok nv =>
          if nv = v then (Decision.unchanged, none, none)
          else (Decision.transformed, some nv, none)
    let rest := runReal cb rs
    ⟨(k, step.1) :: rest.decisions,
     addDecision rest.report k step.1 step.2.2,
     (match step.2.1 with | some nv => [(k, nv)] | none => []) ++ rest.writes⟩

/-- Modelled from the spec: one dry-run pipeline run (§4.6) — the same
filter/transform decision logic as `runReal`, but the terminal action
records a (key, old, new) entry instead of staging a write. -/
def runDry (cb : Callbacks) : List (String × String) → DryOutcome
  | [] => ⟨[], emptyReport, []⟩
  | (k, v) :: rs =>
    let step : Decision × Option String × Option String :=
      match cb.predicate with
      | some p =>
        match p k v with
        | Except.error e => (Decision.failed, none, some e)
        | Except.ok false => (Decision.skipped, none, none)
        | Except.ok true =>
          match cb.transform k v with
          | Except.error e => (Decision.failed, none, some e)
          | Except.ok nv =>
            if nv = v then (Decision.unchanged, none, none)
            else (Decision.transformed, some nv, none)
      | none =>
        match cb.transform k v with
        | Except.error e => (Decision.failed, none, some e)
        | Except.ok nv =>
          if nv = v then (Decision.unchanged, none, none)
          else (Decision.transformed, some nv, none)
    let rest := runDry cb rs
    ⟨(k, step.1) :: rest.decisions,
     addDecisionDry rest.report k step.1 step.2.2,
     (match step.2.1 with | some nv => [(k, v, nv)] | none => []) ++ rest.entries⟩

/-- The filter_by_age callbacks as the callback host hands them to the
engine: both total, so neither branch ever raises (`Except.ok` always). -/
def fbaCallbacks : Callbacks :=
  { predicate := some fun k v => Except.ok (filter_by_age.should_process k v)
    transform := fun k v => Except.ok (filter_by_age.transform_value k v) }

theorem charToNat_ofNat {n : Nat} (h : n.isValidChar) : (Char.ofNat n).toNat = n := by
  simp [Char.ofNat, dif_pos h, Char.ofNatAux, Char.toNat, UInt32.toNat]

theorem hexVal_hexDig {d : Nat} (h : d < 16) : hexVal (hexDig d) = some d := by
  interval_cases d <;> rfl

theorem parseHex4_hex4 {n : Nat} (h : n < 65536) (rest : List Char) :
    parseHex4 (hex4 n ++ rest) = some (n, rest) := by
  show parseHex4 (hexDig (n / 4096 % 16) :: hexDig (n / 256 % 16) :: hexDig (n / 16 % 16) ::
    hexDig (n % 16) :: rest) = some (n, rest)
  simp only [parseHex4]
  rw [hexVal_hexDig (Nat.mod_lt _ (by norm_num)), hexVal_hexDig (Nat.mod_lt _ (by norm_num)),
    hexVal_hexDig (Nat.mod_lt _ (by norm_num)), hexVal_hexDig (Nat.mod_lt _ (by norm_num))]
  simp only [Option.some.injEq, Prod.mk.injEq]
  exact ⟨by omega, trivial⟩

theorem charValidRange (c : Char) : c.toNat < 55296 ∨ (57344 ≤ c.toNat ∧ c.toNat < 1114112) :=
  c.valid

theorem charEq_ofNat {c : Char} {n : Nat} (h : c.toNat = n) : c = Char.ofNat n := by
  rw [← h, Char.ofNat_toNat]

theorem parseStrBody_esc (l : List Char) : ∀ (f : Nat) (rest : List Char),
    l.length + 1 ≤ f →
    parseStrBody f (escChars l ++ ('"' :: rest)) = some (l, rest) := by
  induction l with
  | nil =>
    intro f rest hf
    obtain ⟨f', rfl⟩ : ∃ f', f = f' + 1 := ⟨f - 1, by omega⟩
    simp [escChars, parseStrBody]
  | cons c t ih =>
    intro f rest hf
    obtain ⟨f', rfl⟩ : ∃ f', f = f' + 1 := ⟨f - 1, by omega⟩
    have iht := ih f' rest (by simp at hf ⊢; omega)
    show parseStrBody (f' + 1) ((escChar c ++ escChars t) ++ ('"' :: rest)) = _
    rw [List.append_assoc]
    by_cases h1 : c = '"'
    · subst h1
      simp [escChar, parseStrBody, iht]
    · by_cases h2 : c = '\\'
      · subst h2
        simp [escChar, parseStrBody, iht]
      · by_cases h3 : c = '\n'
        · subst h3
          simp [escChar, parseStrBody, iht]
        · by_cases h4 : c = '\r'
          · subst h4
            simp [escChar, parseStrBody, iht]
          · by_cases h5 : c = '\t'
            · subst h5
              simp [escChar, parseStrBody, iht]
            · by_cases h6 : c.toNat = 8
              · rw [charEq_ofNat h6] at *
                simp [escChar, parseStrBody, iht]
              · by_cases h7 : c.toNat = 12
                · rw [charEq_ofNat h7] at *
                  simp [escChar, parseStrBody, iht]
                · by_cases h8 : 32 ≤ c.toNat ∧ c.toNat ≤ 126
                  · have e1 : escChar c = [c] := by
                      unfold escChar
                      rw [if_neg h1, if_neg h2, if_neg h3, if_neg h4, if_neg h5,
                        if_neg h6, if_neg h7, if_pos h8]
                    rw [e1]
                    show parseStrBody (f' + 1) (c :: (escChars t ++ '"' :: rest)) = _
                    unfold parseStrBody
                    rw [if_neg h1, if_neg h2, if_neg (by omega : ¬ c.toNat < 32), iht]
                    rfl
                  · by_cases h9 : c.toNat < 65536
                    · have e1 : escChar c = '\\' :: 'u' :: hex4 c.toNat := by
                        unfold escChar
                        rw [if_neg h1, if_neg h2, if_neg h3, if_neg h4, if_neg h5,
                          if_neg h6, if_neg h7, if_neg h8, if_pos h9]
                      rw [e1]
                      have hval := charValidRange c
                      have hs1 : ¬ (55296 ≤ c.toNat ∧ c.toNat ≤ 56319) := by
                        rcases hval with hv | hv <;> omega
                      have hs2 : ¬ (56320 ≤ c.toNat ∧ c.toNat ≤ 57343) := by
                        rcases hval with hv | hv <;> omega
                      show parseStrBody (f' + 1)
                        ('\\' :: 'u' :: (hex4 c.toNat ++ (escChars t ++ '"' :: rest))) = _
                      unfold parseStrBody
                      rw [if_neg (by decide), if_pos rfl]
                      simp only [reduceIte, parseHex4_hex4 h9]
                      rw [if_neg hs1, if_neg hs2, iht]
                      simp [Char.ofNat_toNat]
                    · have hval := charValidRange c
                      have hbig : 65536 ≤ c.toNat ∧ c.toNat < 1114112 := by
                        rcases hval with hv | hv <;> omega
                      have hq : (c.toNat - 65536) / 1024 < 1024 := by omega
                      have hmod : (c.toNat - 65536) % 1024 < 1024 := Nat.mod_lt _ (by norm_num)
                      have e1 : escChar c =
                          ('\\' :: 'u' :: hex4 (55296 + (c.toNat - 65536) / 1024)) ++
                            ('\\' :: 'u' :: hex4 (56320 + (c.toNat - 65536) % 1024)) := by
                        unfold escChar
                        rw [if_neg h1, if_neg h2, if_neg h3, if_neg h4, if_neg h5,
                          if_neg h6, if_neg h7, if_neg h8, if_neg h9]
                      rw [e1]
                      show parseStrBody (f' + 1)
                        ('\\' :: 'u' :: (hex4 (55296 + (c.toNat - 65536) / 1024) ++
                          ('\\' :: 'u' :: (hex4 (56320 + (c.toNat - 65536) % 1024) ++
                            (escChars t ++ '"' :: rest))))) = _
                      unfold parseStrBody
                      rw [if_neg (by decide), if_pos rfl]
                      simp only [reduceIte,
                        parseHex4_hex4 (show 55296 + (c.toNat - 65536) / 1024 < 65536 by omega)]
                      rw [if_pos (show 55296 ≤ 55296 + (c.toNat - 65536) / 1024 ∧
                        55296 + (c.toNat - 65536) / 1024 ≤ 56319 by omega)]
                      simp only
                        [parseHex4_hex4 (show 56320 + (c.toNat - 65536) % 1024 < 65536 by omega)]
                      rw [if_pos (show 56320 ≤ 56320 + (c.toNat - 65536) % 1024 ∧
                        56320 + (c.toNat - 65536) % 1024 ≤ 57343 by omega), iht]
                      simp
                      rw [show 65536 + (c.toNat - 65536) / 1024 * 1024 +
                        (c.toNat - 65536) % 1024 = c.toNat from by omega, Char.ofNat_toNat]

theorem digitChar_toNat {d : Nat} (h : d < 10) : (digitChar d).toNat = 48 + d :=
  charToNat_ofNat (Or.inl (by omega))

/-- What may legally follow a printed value inside a larger document: the
end of input or a separator/closer.  Rules out the characters that would
extend a numeric literal. -/
def restOk : List Char → Prop
  | [] => True
  | c :: _ => c = ',' ∨ c = '\x7d' ∨ c = ']'

/-- The input does not start with a decimal digit. -/
def noDigitHead : List Char → Prop
  | [] => True
  | c :: _ => ¬ (48 ≤ c.toNat ∧ c.toNat ≤ 57)

theorem restOk_noDigitHead {cs : List Char} (h : restOk cs) : noDigitHead cs := by
  cases cs with
  | nil => trivial
  | cons c t =>
    rcases h with h | h | h <;> subst h
    · exact (by decide : ¬ (48 ≤ (',' : Char).toNat ∧ (',' : Char).toNat ≤ 57))
    · exact (by decide : ¬ (48 ≤ ('\x7d' : Char).toNat ∧ ('\x7d' : Char).toNat ≤ 57))
    · exact (by decide : ¬ (48 ≤ (']' : Char).toNat ∧ (']' : Char).toNat ≤ 57))

theorem parseDigitsAux_digits (ds : List Nat) :
    ∀ (acc cnt : Nat) (rest : List Char), (∀ d ∈ ds, d < 10) → noDigitHead rest →
    parseDigitsAux acc cnt (ds.map digitChar ++ rest) =
      (ds.foldl (fun a d => a * 10 + d) acc, cnt + ds.length, rest) := by
  induction ds with
  | nil =>
    intro acc cnt rest _ hrest
    cases rest with
    | nil => simp [parseDigitsAux]
    | cons c r =>
      simp only [List.map_nil, List.nil_append, parseDigitsAux, if_neg hrest]
      simp
  | cons d t ih =>
    intro acc cnt rest hds hrest
    have hd : d < 10 := hds d (by simp)
    simp only [List.map_cons, List.cons_append, parseDigitsAux]
    rw [if_pos (by rw [digitChar_toNat hd]; omega), digitChar_toNat hd,
      show (List.map digitChar t).append rest = List.map digitChar t ++ rest from rfl,
      ih _ _ rest (fun x hx => hds x (by simp [hx])) hrest]
    simp only [List.foldl_cons, List.length_cons]
    rw [show 48 + d - 48 = d from by omega]
    simp only [Prod.mk.injEq]
    exact ⟨trivial, by omega, trivial⟩

theorem foldl_digits_reverse (L : List Nat) : ∀ (acc : Nat),
    (L.reverse).foldl (fun a d => a * 10 + d) acc = acc * 10 ^ L.length + Nat.ofDigits 10 L := by
  induction L with
  | nil => intro acc; simp
  | cons d t ih =>
    intro acc
    simp only [List.reverse_cons, List.foldl_append, List.foldl_cons, List.foldl_nil, ih,
      Nat.ofDigits_cons, List.length_cons, pow_succ]
    ring

/-- The most-significant-first digit list that `printNat` renders. -/
def natDigitsBE (n : Nat) : List Nat :=
  if n = 0 then [0] else (Nat.digits 10 n).reverse

theorem printNat_eq (n : Nat) : printNat n = (natDigitsBE n).map digitChar := by
  unfold printNat natDigitsBE
  by_cases h : n = 0
  · subst h
    rfl
  · rw [if_neg h, if_neg h]

theorem natDigitsBE_lt (n : Nat) : ∀ d ∈ natDigitsBE n, d < 10 := by
  intro d hd
  unfold natDigitsBE at hd
  by_cases h : n = 0
  · rw [if_pos h] at hd
    simp at hd
    omega
  · rw [if_neg h] at hd
    exact Nat.digits_lt_base (by norm_num) (List.mem_reverse.mp hd)

theorem natDigitsBE_foldl (n : Nat) (acc : Nat) :
    (natDigitsBE n).foldl (fun a d => a * 10 + d) acc =
      acc * 10 ^ (natDigitsBE n).length + n := by
  unfold natDigitsBE
  by_cases h : n = 0
  · subst h
    simp
  · rw [if_neg h, foldl_digits_reverse, Nat.ofDigits_digits, List.length_reverse]

theorem natDigitsBE_ne_nil (n : Nat) : natDigitsBE n ≠ [] := by
  unfold natDigitsBE
  by_cases h : n = 0
  · simp [h]
  · rw [if_neg h]
    simp [Nat.digits_ne_nil_iff_ne_zero, h]

theorem natDigitsBE_length_le {n k : Nat} (hk : 1 ≤ k) (h : n < 10 ^ k) :
    (natDigitsBE n).length ≤ k := by
  unfold natDigitsBE
  by_cases h0 : n = 0
  · simp [h0]
    omega
  · rw [if_neg h0, List.length_reverse]
    by_contra hlen
    have h1 : 10 ^ (Nat.digits 10 n).length ≤ 10 * n :=
      Nat.base_pow_length_digits_le 10 n (by norm_num) h0
    have h2 : (10 : Nat) ^ (k + 1) ≤ 10 ^ (Nat.digits 10 n).length :=
      Nat.pow_le_pow_right (by norm_num) (by omega)
    have h3 : (10 : Nat) ^ (k + 1) = 10 * 10 ^ k := by ring
    omega

theorem printNat_no_leading_zero (N : Nat) (rest : List Char) :
    ¬ (2 ≤ 0 + (natDigitsBE N).length ∧
      ((natDigitsBE N).map digitChar ++ rest).head? = some '0') := by
  rintro ⟨h2, hh⟩
  have hN : N ≠ 0 := by
    intro h0
    rw [h0] at h2
    simp [natDigitsBE] at h2
  have hd0 : (natDigitsBE N).head? = some ((Nat.digits 10 N).getLast
      (Nat.digits_ne_nil_iff_ne_zero.mpr hN)) := by
    unfold natDigitsBE
    rw [if_neg hN, List.head?_reverse, List.getLast?_eq_getLast _ (Nat.digits_ne_nil_iff_ne_zero.mpr hN)]
  rw [List.head?_append, List.head?_map, hd0] at hh
  simp only [Option.map_some', Option.or_some] at hh
  have hlast := Nat.getLast_digit_ne_zero 10 hN
  have hlt : (Nat.digits 10 N).getLast (Nat.digits_ne_nil_iff_ne_zero.mpr hN) < 10 :=
    Nat.digits_lt_base (by norm_num) (List.getLast_mem _)
  have := congrArg Char.toNat (Option.some.inj hh)
  rw [digitChar_toNat hlt] at this
  have h0 : ('0' : Char).toNat = 48 := by decide
  omega

theorem finishNumber_int (neg : Bool) (i : Nat) (rest : List Char) (hrest : restOk rest) :
    finishNumber neg i 0 0 false rest =
      some (Json.num (if neg then -(i : Int) else (i : Int)), rest) := by
  cases rest with
  | nil => rfl
  | cons c t =>
    rcases hrest with h | h | h <;> subst h <;> rfl

theorem parseNumCore_nat (neg : Bool) (N : Nat) (rest : List Char) (hrest : restOk rest) :
    parseNumCore neg (printNat N ++ rest) =
      some (Json.num (if neg then -(N : Int) else (N : Int)), rest) := by
  unfold parseNumCore
  rw [printNat_eq,
    parseDigitsAux_digits _ _ _ _ (natDigitsBE_lt N) (restOk_noDigitHead hrest)]
  simp only [natDigitsBE_foldl]
  rw [if_neg (by have := natDigitsBE_ne_nil N; simp [List.length_eq_zero]; intro hc; exact this hc)]
  rw [if_neg (by simpa using printNat_no_leading_zero N rest)]
  have hzero : (0 : Nat) * 10 ^ (natDigitsBE N).length + N = N := by omega
  rw [hzero]
  cases rest with
  | nil => simp [finishNumber_int _ _ _ hrest]
  | cons c t =>
    rcases hrest with h | h | h <;> subst h <;>
      simp [finishNumber_int, restOk]

theorem digit_form {c : Char} (h8 : 48 ≤ c.toNat) (h5 : c.toNat ≤ 57) :
    ∃ d, d < 10 ∧ c = digitChar d :=
  ⟨c.toNat - 48, by omega, by
    have : digitChar (c.toNat - 48) = Char.ofNat (48 + (c.toNat - 48)) := rfl
    rw [this, ← charEq_ofNat (show c.toNat = 48 + (c.toNat - 48) by omega)]⟩

theorem parseNumber_eq_core_of_digit {c : Char} (h8 : 48 ≤ c.toNat) (h5 : c.toNat ≤ 57)
    (l : List Char) : parseNumber (c :: l) = parseNumCore false (c :: l) := by
  obtain ⟨d, hd, rfl⟩ := digit_form h8 h5
  interval_cases d <;> rfl

theorem parseVal_digit {f : Nat} {c : Char} (h8 : 48 ≤ c.toNat) (h5 : c.toNat ≤ 57)
    (l : List Char) : parseVal (f + 1) (c :: l) = parseNumber (c :: l) := by
  obtain ⟨d, hd, rfl⟩ := digit_form h8 h5
  interval_cases d <;> rfl

theorem printNat_cons (N : Nat) :
    ∃ d t, d < 10 ∧ printNat N = digitChar d :: List.map digitChar t := by
  obtain ⟨d, t, he⟩ := List.exists_cons_of_ne_nil (natDigitsBE_ne_nil N)
  refine ⟨d, t, natDigitsBE_lt N d (by rw [he]; simp), ?_⟩
  rw [printNat_eq, he]
  rfl

theorem dropLit_inf_digit {c : Char} (h8 : 48 ≤ c.toNat) (h5 : c.toNat ≤ 57) (l : List Char) :
    dropLit ['I', 'n', 'f', 'i', 'n', 'i', 't', 'y'] (c :: l) = none := by
  unfold dropLit
  rw [if_neg]
  intro he
  have := congrArg Char.toNat he
  have hI : ('I' : Char).toNat = 73 := by decide
  omega

theorem parseNumber_printInt (n : Int) (rest : List Char) (hrest : restOk rest) :
    parseNumber (printInt n ++ rest) = some (Json.num n, rest) := by
  unfold printInt
  by_cases hn : n < 0
  · rw [if_pos hn]
    obtain ⟨d, t, hd, he⟩ := printNat_cons n.natAbs
    show parseNumber ('-' :: (printNat n.natAbs ++ rest)) = _
    have h1 : parseNumber ('-' :: (printNat n.natAbs ++ rest)) =
        match dropLit ['I', 'n', 'f', 'i', 'n', 'i', 't', 'y'] (printNat n.natAbs ++ rest) with
        | some r => some (Json.ninf, r)
        | none => parseNumCore true (printNat n.natAbs ++ rest) := rfl
    rw [h1, he, List.cons_append]
    rw [@dropLit_inf_digit (digitChar d) (by rw [digitChar_toNat hd]; omega)
      (by rw [digitChar_toNat hd]; omega) (List.map digitChar t ++ rest)]
    rw [show digitChar d :: (List.map digitChar t ++ rest) = printNat n.natAbs ++ rest from by
      rw [he]; rfl]
    rw [parseNumCore_nat true n.natAbs rest hrest]
    simp
    rcases abs_cases n with ⟨ha, hb⟩ | ⟨ha, hb⟩ <;> omega
  · rw [if_neg hn]
    obtain ⟨d, t, hd, he⟩ := printNat_cons n.natAbs
    rw [he]
    show parseNumber (digitChar d :: (List.map digitChar t ++ rest)) = _
    rw [@parseNumber_eq_core_of_digit (digitChar d) (by rw [digitChar_toNat hd]; omega)
      (by rw [digitChar_toNat hd]; omega) (List.map digitChar t ++ rest)]
    rw [show digitChar d :: (List.map digitChar t ++ rest) = printNat n.natAbs ++ rest from by
      rw [he]; rfl]
    rw [parseNumCore_nat false n.natAbs rest hrest]
    simp
    omega

theorem foldl_replicate_zero (z : Nat) :
    (List.replicate z 0).foldl (fun a d => a * 10 + d) 0 = 0 := by
  induction z with
  | zero => rfl
  | succ z ih => simpa [List.replicate_succ] using ih

theorem finishNumber_flt (neg : Bool) (i fr fcnt : Nat) (rest : List Char) (hrest : restOk rest) :
    finishNumber neg i fr fcnt true rest = some (mkFlt neg i fr fcnt false 0, rest) := by
  cases rest with
  | nil => rfl
  | cons c t =>
    rcases hrest with h | h | h <;> subst h <;> rfl

theorem decideSign_pos {m : Int} (h : m < 0) : (decide (m < 0)) = true := decide_eq_true h

theorem decideSign_neg {m : Int} (h : ¬ m < 0) : (decide (m < 0)) = false := decide_eq_false h

theorem parseNumCore_flt (m : Int) (k : Nat) (hwf : k = 0 ∨ ¬ m % 10 = 0)
    (rest : List Char) (hrest : restOk rest) :
    parseNumCore (decide (m < 0))
      (printNat (m.natAbs / 10 ^ k) ++
        ('.' :: (if k = 0 then ['0'] else padZeros k (printNat (m.natAbs % 10 ^ k))) ++ rest)) =
      some (Json.flt m k, rest) := by
  have hdot : noDigitHead
      (('.' :: (if k = 0 then ['0'] else padZeros k (printNat (m.natAbs % 10 ^ k)))) ++ rest) := by
    show ¬ (48 ≤ ('.' : Char).toNat ∧ ('.' : Char).toNat ≤ 57)
    decide
  unfold parseNumCore
  rw [printNat_eq, ← List.append_assoc ]
  rw [show ((natDigitsBE (m.natAbs / 10 ^ k)).map digitChar ++
    ('.' :: (if k = 0 then ['0'] else padZeros k (printNat (m.natAbs % 10 ^ k))))) ++ rest =
    (natDigitsBE (m.natAbs / 10 ^ k)).map digitChar ++
    (('.' :: (if k = 0 then ['0'] else padZeros k (printNat (m.natAbs % 10 ^ k)))) ++ rest) from by
      rw [List.append_assoc]]
  rw [parseDigitsAux_digits _ _ _ _ (natDigitsBE_lt _) hdot]
  simp only [natDigitsBE_foldl]
  rw [if_neg (by have := natDigitsBE_ne_nil (m.natAbs / 10 ^ k); simp [List.length_eq_zero]; exact this)]
  rw [if_neg (by
    have h := printNat_no_leading_zero (m.natAbs / 10 ^ k)
      (('.' :: (if k = 0 then ['0'] else padZeros k (printNat (m.natAbs % 10 ^ k)))) ++ rest)
    simpa using h)]
  simp only [Nat.zero_mul, Nat.zero_add, List.cons_append]
  by_cases hk : k = 0
  · subst hk
    rw [if_pos rfl]
    rw [show (['0'] : List Char) = [0].map digitChar from rfl]
    rw [parseDigitsAux_digits [0] 0 0 rest (by intro d hd; simp at hd; omega)
      (restOk_noDigitHead hrest)]
    simp only [List.foldl_cons, List.foldl_nil, List.length_cons, List.length_nil]
    rw [finishNumber_flt _ _ _ _ _ hrest]
    unfold mkFlt
    norm_num
    have hife : (if m < 0 then -(|m| * 10) else |m| * 10) = m * 10 := by
      rcases abs_cases m with ⟨h1, h2⟩ | ⟨h1, h2⟩
      · rw [h1, if_neg (by omega)]
      · rw [h1, if_pos h2]
        ring
    rw [hife]
    have h10 : (m * 10) % 10 = 0 := by omega
    simp [strip10, h10]
  · rcases hwf with h0 | hwf
    · exact absurd h0 hk
    rw [if_neg hk]
    have hk1 : 1 ≤ k := by omega
    have hFlt : m.natAbs % 10 ^ k < 10 ^ k := Nat.mod_lt _ (by positivity)
    have hlen : (natDigitsBE (m.natAbs % 10 ^ k)).length ≤ k := natDigitsBE_length_le hk1 hFlt
    have hpad : padZeros k (printNat (m.natAbs % 10 ^ k)) =
        (List.replicate (k - (natDigitsBE (m.natAbs % 10 ^ k)).length) 0 ++
          natDigitsBE (m.natAbs % 10 ^ k)).map digitChar := by
      rw [printNat_eq]
      unfold padZeros
      rw [List.map_append, List.map_replicate, List.length_map]
      rfl
    rw [hpad, parseDigitsAux_digits _ 0 0 rest (by
        intro d hd
        rcases List.mem_append.mp hd with h | h
        · have := List.eq_of_mem_replicate h
          omega
        · exact natDigitsBE_lt _ d h)
      (restOk_noDigitHead hrest)]
    rw [List.foldl_append, foldl_replicate_zero, natDigitsBE_foldl]
    simp only [Nat.zero_mul, Nat.zero_add, List.length_append, List.length_replicate]
    rw [show k - (natDigitsBE (m.natAbs % 10 ^ k)).length +
      (natDigitsBE (m.natAbs % 10 ^ k)).length = k from by omega]
    rw [if_neg (by omega)]
    rw [finishNumber_flt _ _ _ _ _ hrest]
    unfold mkFlt
    norm_num
    rw [if_neg hk]
    have hsign : (if m < 0 then -(|m| % 10 ^ k) + -(|m| / 10 ^ k * 10 ^ k)
        else |m| / 10 ^ k * 10 ^ k + |m| % 10 ^ k) = m := by
      have hid := Int.ediv_add_emod |m| (10 ^ k)
      rw [mul_comm] at hid
      rcases abs_cases m with ⟨h1, h2⟩ | ⟨h1, h2⟩
      · rw [if_neg (by omega), hid, h1]
      · rw [if_pos h2, show -(|m| % 10 ^ k) + -(|m| / 10 ^ k * 10 ^ k) =
          -(|m| / 10 ^ k * 10 ^ k + |m| % 10 ^ k) from by ring, hid, h1]
        ring
    rw [hsign]
    obtain ⟨kk, rfl⟩ : ∃ kk, k = kk + 1 := ⟨k - 1, by omega⟩
    simp [strip10, hwf]


theorem printInt_head (n : Int) :
    ∃ c l, printInt n = c :: l ∧ (c = '-' ∨ (48 ≤ c.toNat ∧ c.toNat ≤ 57)) := by
  unfold printInt
  by_cases hn : n < 0
  · exact ⟨'-', _, by rw [if_pos hn], Or.inl rfl⟩
  · obtain ⟨d, t, hd, he⟩ := printNat_cons n.natAbs
    exact ⟨digitChar d, _, by rw [if_neg hn, he], Or.inr (by rw [digitChar_toNat hd]; omega)⟩

theorem printFlt_head (m : Int) (k : Nat) :
    ∃ c l, printFlt m k = c :: l ∧ (c = '-' ∨ (48 ≤ c.toNat ∧ c.toNat ≤ 57)) := by
  unfold printFlt
  by_cases hm : m < 0
  · exact ⟨'-', _, by rw [if_pos hm]; rfl, Or.inl rfl⟩
  · obtain ⟨d, t, hd, he⟩ := printNat_cons (m.natAbs / 10 ^ k)
    refine ⟨digitChar d, List.map digitChar t ++
      ('.' :: (if k = 0 then ['0'] else padZeros k (printNat (m.natAbs % 10 ^ k)))), ?_,
      Or.inr (by rw [digitChar_toNat hd]; omega)⟩
    rw [if_neg hm, he]
    simp

theorem parseNumber_printFlt (m : Int) (k : Nat) (hwf : k = 0 ∨ ¬ m % 10 = 0)
    (rest : List Char) (hrest : restOk rest) :
    parseNumber (printFlt m k ++ rest) = some (Json.flt m k, rest) := by
  have hcore := parseNumCore_flt m k hwf rest hrest
  unfold printFlt
  by_cases hm : m < 0
  · rw [if_pos hm]
    obtain ⟨d, t, hd, he⟩ := printNat_cons (m.natAbs / 10 ^ k)
    rw [show (['-'] ++ (printNat (m.natAbs / 10 ^ k) ++
      ('.' :: (if k = 0 then ['0'] else padZeros k (printNat (m.natAbs % 10 ^ k)))))) ++ rest =
      '-' :: (printNat (m.natAbs / 10 ^ k) ++
        ('.' :: (if k = 0 then ['0'] else padZeros k (printNat (m.natAbs % 10 ^ k))) ++ rest))
      from by simp]
    have h1 : parseNumber ('-' :: (printNat (m.natAbs / 10 ^ k) ++
        ('.' :: (if k = 0 then ['0'] else padZeros k (printNat (m.natAbs % 10 ^ k))) ++ rest))) =
        match dropLit ['I', 'n', 'f', 'i', 'n', 'i', 't', 'y']
          (printNat (m.natAbs / 10 ^ k) ++
            ('.' :: (if k = 0 then ['0'] else padZeros k (printNat (m.natAbs % 10 ^ k))) ++ rest)) with
        | some r => some (Json.ninf, r)
        | none => parseNumCore true (printNat (m.natAbs / 10 ^ k) ++
            ('.' :: (if k = 0 then ['0'] else padZeros k (printNat (m.natAbs % 10 ^ k))) ++ rest)) :=
      rfl
    rw [h1, he, List.cons_append]
    rw [@dropLit_inf_digit (digitChar d) (by rw [digitChar_toNat hd]; omega)
      (by rw [digitChar_toNat hd]; omega) _]
    rw [← List.cons_append, ← he, show true = decide (m < 0) from (decideSign_pos hm).symm, hcore]
  · rw [if_neg hm]
    obtain ⟨d, t, hd, he⟩ := printNat_cons (m.natAbs / 10 ^ k)
    rw [show (([] : List Char) ++ (printNat (m.natAbs / 10 ^ k) ++
      ('.' :: (if k = 0 then ['0'] else padZeros k (printNat (m.natAbs % 10 ^ k)))))) ++ rest =
      printNat (m.natAbs / 10 ^ k) ++
        ('.' :: (if k = 0 then ['0'] else padZeros k (printNat (m.natAbs % 10 ^ k))) ++ rest)
      from by simp]
    rw [he, List.cons_append]
    rw [@parseNumber_eq_core_of_digit (digitChar d) (by rw [digitChar_toNat hd]; omega)
      (by rw [digitChar_toNat hd]; omega) _]
    rw [← List.cons_append, ← he, show false = decide (m < 0) from (decideSign_neg hm).symm, hcore]

theorem parseVal_printInt (f : Nat) (n : Int) (rest : List Char) (hrest : restOk rest) :
    parseVal (f + 1) (printInt n ++ rest) = some (Json.num n, rest) := by
  obtain ⟨c, l, he, hc⟩ := printInt_head n
  rw [he, List.cons_append]
  have hdisp : parseVal (f + 1) (c :: (l ++ rest)) = parseNumber (c :: (l ++ rest)) := by
    rcases hc with rfl | hc
    · rfl
    · exact parseVal_digit hc.1 hc.2 _
  rw [hdisp, ← List.cons_append, ← he, parseNumber_printInt n rest hrest]

theorem parseVal_printFlt (f : Nat) (m : Int) (k : Nat) (hwf : k = 0 ∨ ¬ m % 10 = 0)
    (rest : List Char) (hrest : restOk rest) :
    parseVal (f + 1) (printFlt m k ++ rest) = some (Json.flt m k, rest) := by
  obtain ⟨c, l, he, hc⟩ := printFlt_head m k
  rw [he, List.cons_append]
  have hdisp : parseVal (f + 1) (c :: (l ++ rest)) = parseNumber (c :: (l ++ rest)) := by
    rcases hc with rfl | hc
    · rfl
    · exact parseVal_digit hc.1 hc.2 _
  rw [hdisp, ← List.cons_append, ← he, parseNumber_printFlt m k hwf rest hrest]

mutual

/-- Fuel that suffices for `parseVal` to parse the printed form of a value. -/
def fsize : Json → Nat
  | Json.arr xs => 1 + fsizeE xs
  | Json.obj kvs => 1 + fsizeM kvs
  | _ => 1

/-- Fuel that suffices for `parseElems` on a printed element list. -/
def fsizeE : List Json → Nat
  | [] => 1
  | x :: t => 1 + fsize x + fsizeE t

/-- Fuel that suffices for `parseMembers` on a printed member list. -/
def fsizeM : List (String × Json) → Nat
  | [] => 1
  | p :: t => 1 + fsize p.2 + fsizeM t

end

mutual

/-- The normal forms that `loads` can produce: floats carry no trailing
decimal zeros and object keys are distinct at every level.  `dumps`
followed by `loads` is the identity exactly on these values. -/
def WFj : Json → Prop
  | Json.null => True
  | Json.bool _ => True
  | Json.num _ => True
  | Json.flt m k => k = 0 ∨ ¬ m % 10 = 0
  | Json.nan => True
  | Json.inf => True
  | Json.ninf => True
  | Json.str _ => True
  | Json.arr xs => WFe xs
  | Json.obj kvs => (keysOf kvs).Nodup ∧ WFm kvs

/-- `WFj` for every element. -/
def WFe : List Json → Prop
  | [] => True
  | x :: t => WFj x ∧ WFe t

/-- `WFj` for every member value. -/
def WFm : List (String × Json) → Prop
  | [] => True
  | p :: t => WFj p.2 ∧ WFm t

end

theorem escChar_length_pos (c : Char) : 1 ≤ (escChar c).length := by
  unfold escChar
  repeat' split
  all_goals simp [hex4]

theorem escChars_length_ge (l : List Char) : l.length ≤ (escChars l).length := by
  induction l with
  | nil => simp [escChars]
  | cons c t ih =>
    have := escChar_length_pos c
    simp only [escChars, List.length_append, List.length_cons]
    omega

theorem stringMk_data (s : String) : String.mk s.data = s := rfl

theorem parseStr_esc (s : String) (rest : List Char) :
    parseStr (escChars s.data ++ ('"' :: rest)) = some (s.data, rest) := by
  unfold parseStr
  apply parseStrBody_esc
  have := escChars_length_ge s.data
  simp only [List.length_append, List.length_cons]
  omega

theorem parseVal_str (f : Nat) (s : String) (rest : List Char) :
    parseVal (f + 1) (escStr s ++ rest) = some (Json.str s, rest) := by
  show parseVal (f + 1) ('"' :: ((escChars s.data ++ ['"']) ++ rest)) = _
  rw [List.append_assoc]
  show (parseStr (escChars s.data ++ ('"' :: rest))).map
    (fun p => (Json.str ⟨p.1⟩, p.2)) = _
  rw [parseStr_esc]
  simp [stringMk_data]

theorem isWsChar_false_of_digit {c : Char} (h8 : 48 ≤ c.toNat) (h5 : c.toNat ≤ 57) :
    isWsChar c = false := by
  have h1 : c ≠ ' ' := fun he => absurd h8 (by subst he; decide)
  have h2 : c ≠ '\t' := fun he => absurd h8 (by subst he; decide)
  have h3 : c ≠ '\n' := fun he => absurd h8 (by subst he; decide)
  have h4 : c ≠ '\r' := fun he => absurd h8 (by subst he; decide)
  simp [isWsChar, h1, h2, h3, h4]

theorem dumps_head_notWs (d : Json) :
    ∃ c l, dumpsChars d = c :: l ∧ isWsChar c = false := by
  cases d with
  | null => exact ⟨'n', _, by rw [dumpsChars], by decide⟩
  | bool b => cases b with
    | true => exact ⟨'t', _, by rw [dumpsChars], by decide⟩
    | false => exact ⟨'f', _, by rw [dumpsChars], by decide⟩
  | num n =>
    obtain ⟨c, l, he, hc⟩ := printInt_head n
    refine ⟨c, l, by rw [dumpsChars]; exact he, ?_⟩
    rcases hc with rfl | hc
    · decide
    · exact isWsChar_false_of_digit hc.1 hc.2
  | flt m k =>
    obtain ⟨c, l, he, hc⟩ := printFlt_head m k
    refine ⟨c, l, by rw [dumpsChars]; exact he, ?_⟩
    rcases hc with rfl | hc
    · decide
    · exact isWsChar_false_of_digit hc.1 hc.2
  | nan => exact ⟨'N', _, by rw [dumpsChars], by decide⟩
  | inf => exact ⟨'I', _, by rw [dumpsChars], by decide⟩
  | ninf => exact ⟨'-', _, by rw [dumpsChars], by decide⟩
  | str s => exact ⟨'"', _, by rw [dumpsChars]; rfl, by decide⟩
  | arr xs => exact ⟨'[', _, by rw [dumpsChars], by decide⟩
  | obj kvs => exact ⟨'\x7b', _, by rw [dumpsChars], by decide⟩

theorem skipWs_cons_notWs {c : Char} (h : isWsChar c = false) (t : List Char) :
    skipWs (c :: t) = c :: t := by
  simp [skipWs, h]

theorem skipWs_dumps (d : Json) (rest : List Char) :
    skipWs (dumpsChars d ++ rest) = dumpsChars d ++ rest := by
  obtain ⟨c, l, he, hc⟩ := dumps_head_notWs d
  rw [he, List.cons_append, skipWs_cons_notWs hc]

theorem attach_map_dumps (xs : List Json) :
    xs.attach.map (fun x => dumpsChars x.1) = xs.map dumpsChars :=
  List.attach_map_val xs dumpsChars

theorem attach_map_members (kvs : List (String × Json)) :
    kvs.attach.map (fun p => escStr p.1.1 ++ (':' :: ' ' :: dumpsChars p.1.2)) =
      kvs.map (fun p => escStr p.1 ++ (':' :: ' ' :: dumpsChars p.2)) :=
  List.attach_map_val kvs (fun p => escStr p.1 ++ (':' :: ' ' :: dumpsChars p.2))

theorem insertKV_append {acc : List (String × Json)} {k : String}
    (h : k ∉ keysOf acc) (v : Json) : insertKV acc k v = acc ++ [(k, v)] := by
  induction acc with
  | nil => rfl
  | cons p t ih =>
    obtain ⟨pk, pv⟩ := p
    simp only [keysOf, List.map_cons, List.mem_cons] at h
    push_neg at h
    simp only [insertKV, if_neg (fun he : pk = k => h.1 he.symm)]
    rw [ih h.2]
    simp

theorem buildObj_core (kvs : List (String × Json)) : ∀ acc : List (String × Json),
    (keysOf (acc ++ kvs)).Nodup →
    kvs.foldl (fun a p => insertKV a p.1 p.2) acc = acc ++ kvs := by
  induction kvs with
  | nil => intro acc _; simp
  | cons p t ih =>
    intro acc hnd
    obtain ⟨pk, pv⟩ := p
    have hmem : pk ∉ keysOf acc := by
      intro hm
      rw [show keysOf (acc ++ (pk, pv) :: t) = keysOf acc ++ (pk :: keysOf t) from by
        simp [keysOf]] at hnd
      exact List.disjoint_of_nodup_append hnd hm (by simp)
    simp only [List.foldl_cons]
    rw [insertKV_append hmem]
    rw [ih (acc ++ [(pk, pv)]) (by
      rw [show (acc ++ [(pk, pv)]) ++ t = acc ++ ((pk, pv) :: t) from by simp]
      exact hnd)]
    simp

theorem buildObj_eq_self {kvs : List (String × Json)} (h : (keysOf kvs).Nodup) :
    buildObj kvs = kvs := by
  unfold buildObj
  rw [buildObj_core kvs [] (by simpa using h)]
  rfl

theorem fsize_pos (d : Json) : 1 ≤ fsize d := by
  cases d <;> simp [fsize]

theorem fsizeE_pos (xs : List Json) : 1 ≤ fsizeE xs := by
  cases xs with
  | nil => simp [fsizeE]
  | cons x t => simp only [fsizeE]; omega

theorem fsizeM_pos (kvs : List (String × Json)) : 1 ≤ fsizeM kvs := by
  cases kvs with
  | nil => simp [fsizeM]
  | cons p t => simp only [fsizeM]; omega

theorem dumps_head (d : Json) :
    ∃ c l, dumpsChars d = c :: l ∧ isWsChar c = false ∧ c ≠ ']' ∧ c ≠ '\x7d' := by
  obtain ⟨c, l, he, hw⟩ := dumps_head_notWs d
  refine ⟨c, l, he, hw, ?_, ?_⟩
  · rcases d with _ | b | n | ⟨m, k⟩ | _ | _ | _ | s | xs | kvs
    · rw [dumpsChars] at he
      intro hc
      subst hc
      exact absurd (List.cons.inj he).1 (by decide)
    · cases b <;> rw [dumpsChars] at he <;> intro hc <;> subst hc <;>
        exact absurd (List.cons.inj he).1 (by decide)
    · rw [dumpsChars] at he
      obtain ⟨c2, l2, he2, hc2⟩ := printInt_head n
      rw [he2] at he
      intro hc
      subst hc
      rcases hc2 with h | h
      · exact absurd ((List.cons.inj he).1.symm.trans h) (by decide)
      · have := congrArg Char.toNat (List.cons.inj he).1
        have hb : (']' : Char).toNat = 93 := by decide
        omega
    · rw [dumpsChars] at he
      obtain ⟨c2, l2, he2, hc2⟩ := printFlt_head m k
      rw [he2] at he
      intro hc
      subst hc
      rcases hc2 with h | h
      · exact absurd ((List.cons.inj he).1.symm.trans h) (by decide)
      · have := congrArg Char.toNat (List.cons.inj he).1
        have hb : (']' : Char).toNat = 93 := by decide
        omega
    · rw [dumpsChars] at he
      intro hc
      subst hc
      exact absurd (List.cons.inj he).1 (by decide)
    · rw [dumpsChars] at he
      intro hc
      subst hc
      exact absurd (List.cons.inj he).1 (by decide)
    · rw [dumpsChars] at he
      intro hc
      subst hc
      exact absurd (List.cons.inj he).1 (by decide)
    · rw [dumpsChars] at he
      intro hc
      subst hc
      exact absurd (List.cons.inj he).1 (by decide)
    · rw [dumpsChars] at he
      intro hc
      subst hc
      exact absurd (List.cons.inj he).1 (by decide)
    · rw [dumpsChars] at he
      intro hc
      subst hc
      exact absurd (List.cons.inj he).1 (by decide)
  · rcases d with _ | b | n | ⟨m, k⟩ | _ | _ | _ | s | xs | kvs
    · rw [dumpsChars] at he
      intro hc
      subst hc
      exact absurd (List.cons.inj he).1 (by decide)
    · cases b <;> rw [dumpsChars] at he <;> intro hc <;> subst hc <;>
        exact absurd (List.cons.inj he).1 (by decide)
    · rw [dumpsChars] at he
      obtain ⟨c2, l2, he2, hc2⟩ := printInt_head n
      rw [he2] at he
      intro hc
      subst hc
      rcases hc2 with h | h
      · exact absurd ((List.cons.inj he).1.symm.trans h) (by decide)
      · have := congrArg Char.toNat (List.cons.inj he).1
        have hb : ('\x7d' : Char).toNat = 125 := by decide
        omega
    · rw [dumpsChars] at he
      obtain ⟨c2, l2, he2, hc2⟩ := printFlt_head m k
      rw [he2] at he
      intro hc
      subst hc
      rcases hc2 with h | h
      · exact absurd ((List.cons.inj he).1.symm.trans h) (by decide)
      · have := congrArg Char.toNat (List.cons.inj he).1
        have hb : ('\x7d' : Char).toNat = 125 := by decide
        omega
    · rw [dumpsChars] at he
      intro hc
      subst hc
      exact absurd (List.cons.inj he).1 (by decide)
    · rw [dumpsChars] at he
      intro hc
      subst hc
      exact absurd (List.cons.inj he).1 (by decide)
    · rw [dumpsChars] at he
      intro hc
      subst hc
      exact absurd (List.cons.inj he).1 (by decide)
    · rw [dumpsChars] at he
      intro hc
      subst hc
      exact absurd (List.cons.inj he).1 (by decide)
    · rw [dumpsChars] at he
      intro hc
      subst hc
      exact absurd (List.cons.inj he).1 (by decide)
    · rw [dumpsChars] at he
      intro hc
      subst hc
      exact absurd (List.cons.inj he).1 (by decide)

theorem joinSep_first {α : Type} (sep : List Char) (A : List Char) (R : List (List Char)) :
    ∃ Z, joinSep sep (A :: R) = A ++ Z := by
  cases R with
  | nil => exact ⟨[], by simp [joinSep]⟩
  | cons B T => exact ⟨sep ++ joinSep sep (B :: T), rfl⟩

theorem parseVal_bracket (f : Nat) (cs : List Char) :
    parseVal (f + 1) ('[' :: cs) =
      (match skipWs cs with
      | ']' :: r2 => some (Json.arr [], r2)
      | cs2 => (parseElems f cs2).map fun p => (Json.arr p.1, p.2)) := rfl

theorem parseVal_brace (f : Nat) (cs : List Char) :
    parseVal (f + 1) ('\x7b' :: cs) =
      (match skipWs cs with
      | '\x7d' :: r2 => some (Json.obj [], r2)
      | cs2 => (parseMembers f cs2).map fun p => (Json.obj (buildObj p.1), p.2)) := rfl

theorem parseElems_step (f : Nat) (cs : List Char) :
    parseElems (f + 1) cs =
      (match parseVal f cs with
      | none => none
      | some (v, r) =>
        match skipWs r with
        | ',' :: r2 => (parseElems f (skipWs r2)).map fun p => (v :: p.1, p.2)
        | ']' :: r2 => some ([v], r2)
        | _ => none) := rfl

theorem parseMembers_quote (f : Nat) (cs : List Char) :
    parseMembers (f + 1) ('"' :: cs) =
      (match parseStr cs with
      | none => none
      | some (k, r1) =>
        match skipWs r1 with
        | ':' :: r2 =>
          match parseVal f (skipWs r2) with
          | none => none
          | some (v, r3) =>
            match skipWs r3 with
            | ',' :: r4 => (parseMembers f (skipWs r4)).map fun p => ((⟨k⟩, v) :: p.1, p.2)
            | '\x7d' :: r4 => some ([(⟨k⟩, v)], r4)
            | _ => none
        | _ => none) := rfl

theorem parseRT_all : ∀ f : Nat,
    (∀ (d : Json) (rest : List Char), WFj d → fsize d ≤ f → restOk rest →
      parseVal f (dumpsChars d ++ rest) = some (d, rest)) ∧
    (∀ (xs : List Json) (rest : List Char), xs ≠ [] → WFe xs → fsizeE xs ≤ f → restOk rest →
      parseElems f (joinSep [',', ' '] (xs.map dumpsChars) ++ (']' :: rest)) = some (xs, rest)) ∧
    (∀ (kvs : List (String × Json)) (rest : List Char), kvs ≠ [] → WFm kvs → fsizeM kvs ≤ f →
      restOk rest →
      parseMembers f ((joinSep [',', ' ']
        (kvs.map fun p => escStr p.1 ++ (':' :: ' ' :: dumpsChars p.2))) ++ ('\x7d' :: rest)) =
        some (kvs, rest)) := by
  intro f
  induction f using Nat.strong_induction_on with
  | _ f ih =>
  obtain (rfl | ⟨f', rfl⟩) : f = 0 ∨ ∃ f', f = f' + 1 := by
    cases f with
    | zero => exact Or.inl rfl
    | succ n => exact Or.inr ⟨n, rfl⟩
  · refine ⟨?_, ?_, ?_⟩
    · intro d rest _ hfs _
      exact absurd hfs (by have := fsize_pos d; omega)
    · intro xs rest _ _ hfs _
      exact absurd hfs (by have := fsizeE_pos xs; omega)
    · intro kvs rest _ _ hfs _
      exact absurd hfs (by have := fsizeM_pos kvs; omega)
  refine ⟨?_, ?_, ?_⟩
  · -- parseVal
    intro d rest hwf hfs hrest
    cases d with
    | null => rw [dumpsChars]; rfl
    | bool b => cases b <;> (rw [dumpsChars]; rfl)
    | nan => rw [dumpsChars]; rfl
    | inf => rw [dumpsChars]; rfl
    | ninf => rw [dumpsChars]; rfl
    | num n =>
      rw [dumpsChars]
      exact parseVal_printInt f' n rest hrest
    | flt m k =>
      rw [dumpsChars]
      exact parseVal_printFlt f' m k (by rw [WFj] at hwf; exact hwf) rest hrest
    | str s =>
      rw [dumpsChars]
      exact parseVal_str f' s rest
    | arr xs =>
      cases xs with
      | nil =>
        rw [dumpsChars]
        rfl
      | cons x t =>
        rw [dumpsChars, attach_map_dumps]
        obtain ⟨c, l, hJ, hw, hbr, _⟩ :
            ∃ c l, joinSep [',', ' '] ((x :: t).map dumpsChars) = c :: l ∧
              isWsChar c = false ∧ c ≠ ']' ∧ c ≠ '\x7d' := by
          obtain ⟨cd, ld, hd, hwd, h1, h2⟩ := dumps_head x
          obtain ⟨Z, hZ⟩ := joinSep_first (α := Unit) [',', ' '] (dumpsChars x)
            (t.map dumpsChars)
          rw [List.map_cons, hZ, hd]
          exact ⟨cd, ld ++ Z, by simp, hwd, h1, h2⟩
        rw [show '[' :: (joinSep [',', ' '] ((x :: t).map dumpsChars) ++ [']']) ++ rest =
          '[' :: (joinSep [',', ' '] ((x :: t).map dumpsChars) ++ (']' :: rest)) from by simp]
        rw [parseVal_bracket]
        rw [show skipWs (joinSep [',', ' '] ((x :: t).map dumpsChars) ++ (']' :: rest)) =
          joinSep [',', ' '] ((x :: t).map dumpsChars) ++ (']' :: rest) from by
            rw [hJ, List.cons_append, skipWs_cons_notWs hw]]
        rw [hJ, List.cons_append]
        split
        · next r2 heq =>
          exact absurd (List.cons.inj heq).1 hbr
        · next cs2 heq =>
          rw [← List.cons_append, ← hJ]
          have helems := (ih f' (by omega)).2.1 (x :: t) rest (by simp)
            (by rw [WFj] at hwf; exact hwf)
            (by rw [fsize] at hfs; omega) hrest
          rw [helems]
          rfl
    | obj kvs =>
      cases kvs with
      | nil =>
        rw [dumpsChars]
        rfl
      | cons p t =>
        rw [dumpsChars, attach_map_members]
        have hJ : ∃ l, joinSep [',', ' ']
            ((p :: t).map fun q => escStr q.1 ++ (':' :: ' ' :: dumpsChars q.2)) = '"' :: l := by
          obtain ⟨Z, hZ⟩ := joinSep_first (α := Unit) [',', ' ']
            (escStr p.1 ++ (':' :: ' ' :: dumpsChars p.2))
            (t.map fun q => escStr q.1 ++ (':' :: ' ' :: dumpsChars q.2))
          rw [List.map_cons, hZ]
          exact ⟨(escChars p.1.data ++ ['"']) ++ (':' :: ' ' :: dumpsChars p.2) ++ Z, by simp [escStr]⟩
        obtain ⟨l, hJ⟩ := hJ
        rw [show '\x7b' :: (joinSep [',', ' ']
            ((p :: t).map fun q => escStr q.1 ++ (':' :: ' ' :: dumpsChars q.2)) ++ ['\x7d']) ++ rest =
          '\x7b' :: (joinSep [',', ' ']
            ((p :: t).map fun q => escStr q.1 ++ (':' :: ' ' :: dumpsChars q.2)) ++ ('\x7d' :: rest))
          from by simp]
        rw [parseVal_brace]
        rw [show skipWs (joinSep [',', ' ']
            ((p :: t).map fun q => escStr q.1 ++ (':' :: ' ' :: dumpsChars q.2)) ++ ('\x7d' :: rest)) =
          joinSep [',', ' ']
            ((p :: t).map fun q => escStr q.1 ++ (':' :: ' ' :: dumpsChars q.2)) ++ ('\x7d' :: rest)
          from by rw [hJ, List.cons_append,
            skipWs_cons_notWs (show isWsChar '"' = false from by decide)]]
        rw [hJ, List.cons_append]
        split
        · next r2 heq =>
          exact absurd (List.cons.inj heq).1 (by decide)
        · next cs2 heq =>
          rw [← List.cons_append, ← hJ]
          have hmem := (ih f' (by omega)).2.2 (p :: t) rest (by simp)
            (by rw [WFj] at hwf; exact hwf.2)
            (by rw [fsize] at hfs; omega) hrest
          rw [hmem]
          have hnd : (keysOf (p :: t)).Nodup := by rw [WFj] at hwf; exact hwf.1
          simp [buildObj_eq_self hnd]
  · -- parseElems
    intro xs rest hne hwfe hfs hrest
    obtain ⟨x, t, rfl⟩ := List.exists_cons_of_ne_nil hne
    cases t with
    | nil =>
      rw [show joinSep [',', ' '] ([x].map dumpsChars) = dumpsChars x from by
        simp [joinSep]]
      rw [parseElems_step]
      have hval := (ih f' (by omega)).1 x (']' :: rest)
        (by rw [WFe] at hwfe; exact hwfe.1)
        (by rw [fsizeE, fsizeE] at hfs; omega)
        (by exact Or.inr (Or.inr rfl))
      rw [hval]
      simp only [skipWs_cons_notWs (show isWsChar ']' = false from by decide)]
    | cons y t2 =>
      rw [show joinSep [',', ' '] ((x :: y :: t2).map dumpsChars) =
        dumpsChars x ++ ([',', ' '] ++ joinSep [',', ' '] ((y :: t2).map dumpsChars)) from by
          simp [joinSep]]
      rw [show (dumpsChars x ++ ([',', ' '] ++ joinSep [',', ' '] ((y :: t2).map dumpsChars))) ++
          (']' :: rest) =
        dumpsChars x ++ (',' :: ' ' ::
          (joinSep [',', ' '] ((y :: t2).map dumpsChars) ++ (']' :: rest))) from by simp]
      rw [parseElems_step]
      have hval := (ih f' (by omega)).1 x (',' :: ' ' ::
          (joinSep [',', ' '] ((y :: t2).map dumpsChars) ++ (']' :: rest)))
        (by rw [WFe] at hwfe; exact hwfe.1)
        (by rw [fsizeE] at hfs; omega)
        (Or.inl rfl)
      rw [hval]
      simp only [skipWs_cons_notWs (show isWsChar ',' = false from by decide)]
      have hskip2 : skipWs (' ' ::
          (joinSep [',', ' '] ((y :: t2).map dumpsChars) ++ (']' :: rest))) =
          joinSep [',', ' '] ((y :: t2).map dumpsChars) ++ (']' :: rest) := by
        rw [show skipWs (' ' ::
            (joinSep [',', ' '] ((y :: t2).map dumpsChars) ++ (']' :: rest))) =
          skipWs (joinSep [',', ' '] ((y :: t2).map dumpsChars) ++ (']' :: rest)) from by
            simp [skipWs, isWsChar]]
        obtain ⟨cd, ld, hd, hwd, _, _⟩ := dumps_head y
        obtain ⟨Z, hZ⟩ := joinSep_first (α := Unit) [',', ' '] (dumpsChars y)
          (t2.map dumpsChars)
        rw [List.map_cons, hZ, hd, List.cons_append, List.cons_append,
          skipWs_cons_notWs hwd]
      rw [hskip2]
      have helems := (ih f' (by omega)).2.1 (y :: t2) rest (by simp)
        (by rw [WFe] at hwfe; exact hwfe.2)
        (by rw [fsizeE] at hfs; omega) hrest
      rw [helems]
      rfl
  · -- parseMembers
    intro kvs rest hne hwfm hfs hrest
    obtain ⟨p, t, rfl⟩ := List.exists_cons_of_ne_nil hne
    obtain ⟨s, v⟩ := p
    have hfirst : ∀ (cont : List Char),
        ((escStr s ++ (':' :: ' ' :: dumpsChars v)) ++ cont) =
          '"' :: (escChars s.data ++ ('"' :: (':' :: ' ' :: (dumpsChars v ++ cont)))) := by
      intro cont
      simp [escStr]
    cases t with
    | nil =>
      rw [show joinSep [',', ' ']
          ([((s, v) : String × Json)].map fun q => escStr q.1 ++ (':' :: ' ' :: dumpsChars q.2)) =
        escStr s ++ (':' :: ' ' :: dumpsChars v) from by simp [joinSep]]
      rw [hfirst, parseMembers_quote, parseStr_esc]
      simp only [skipWs_cons_notWs (show isWsChar ':' = false from by decide)]
      have hval := (ih f' (by omega)).1 v ('\x7d' :: rest)
        (by rw [WFm] at hwfm; exact hwfm.1)
        (by rw [fsizeM, fsizeM] at hfs; simp only [] at hfs; omega)
        (Or.inr (Or.inl rfl))
      rw [show skipWs (' ' :: (dumpsChars v ++ ('\x7d' :: rest))) =
          dumpsChars v ++ ('\x7d' :: rest) from by
        rw [show skipWs (' ' :: (dumpsChars v ++ ('\x7d' :: rest))) =
            skipWs (dumpsChars v ++ ('\x7d' :: rest)) from by simp [skipWs, isWsChar]]
        exact skipWs_dumps v _]
      rw [hval]
      simp only [skipWs_cons_notWs (show isWsChar '\x7d' = false from by decide)]
    | cons q t2 =>
      rw [show joinSep [',', ' ']
          (((s, v) :: q :: t2).map fun r => escStr r.1 ++ (':' :: ' ' :: dumpsChars r.2)) =
        (escStr s ++ (':' :: ' ' :: dumpsChars v)) ++ ([',', ' '] ++ joinSep [',', ' ']
          ((q :: t2).map fun r => escStr r.1 ++ (':' :: ' ' :: dumpsChars r.2))) from by
          simp [joinSep]]
      rw [show ((escStr s ++ (':' :: ' ' :: dumpsChars v)) ++ ([',', ' '] ++ joinSep [',', ' ']
          ((q :: t2).map fun r => escStr r.1 ++ (':' :: ' ' :: dumpsChars r.2)))) ++
          ('\x7d' :: rest) =
        (escStr s ++ (':' :: ' ' :: dumpsChars v)) ++ (',' :: ' ' :: (joinSep [',', ' ']
          ((q :: t2).map fun r => escStr r.1 ++ (':' :: ' ' :: dumpsChars r.2)) ++
            ('\x7d' :: rest))) from by simp]
      rw [hfirst, parseMembers_quote, parseStr_esc]
      simp only [skipWs_cons_notWs (show isWsChar ':' = false from by decide)]
      have hval := (ih f' (by omega)).1 v (',' :: ' ' :: (joinSep [',', ' ']
          ((q :: t2).map fun r => escStr r.1 ++ (':' :: ' ' :: dumpsChars r.2)) ++
            ('\x7d' :: rest)))
        (by rw [WFm] at hwfm; exact hwfm.1)
        (by rw [fsizeM] at hfs; simp only [] at hfs; omega)
        (Or.inl rfl)
      rw [show skipWs (' ' :: (dumpsChars v ++ (',' :: ' ' :: (joinSep [',', ' ']
          ((q :: t2).map fun r => escStr r.1 ++ (':' :: ' ' :: dumpsChars r.2)) ++
            ('\x7d' :: rest))))) =
          dumpsChars v ++ (',' :: ' ' :: (joinSep [',', ' ']
          ((q :: t2).map fun r => escStr r.1 ++ (':' :: ' ' :: dumpsChars r.2)) ++
            ('\x7d' :: rest))) from by
        rw [show skipWs (' ' :: (dumpsChars v ++ (',' :: ' ' :: (joinSep [',', ' ']
            ((q :: t2).map fun r => escStr r.1 ++ (':' :: ' ' :: dumpsChars r.2)) ++
              ('\x7d' :: rest))))) =
            skipWs (dumpsChars v ++ (',' :: ' ' :: (joinSep [',', ' ']
            ((q :: t2).map fun r => escStr r.1 ++ (':' :: ' ' :: dumpsChars r.2)) ++
              ('\x7d' :: rest)))) from by simp [skipWs, isWsChar]]
        exact skipWs_dumps v _]
      rw [hval]
      simp only [skipWs_cons_notWs (show isWsChar ',' = false from by decide)]
      have hskip2 : skipWs (' ' :: (joinSep [',', ' ']
          ((q :: t2).map fun r => escStr r.1 ++ (':' :: ' ' :: dumpsChars r.2)) ++
            ('\x7d' :: rest))) =
          joinSep [',', ' ']
            ((q :: t2).map fun r => escStr r.1 ++ (':' :: ' ' :: dumpsChars r.2)) ++
            ('\x7d' :: rest) := by
        rw [show skipWs (' ' :: (joinSep [',', ' ']
            ((q :: t2).map fun r => escStr r.1 ++ (':' :: ' ' :: dumpsChars r.2)) ++
              ('\x7d' :: rest))) =
            skipWs (joinSep [',', ' ']
            ((q :: t2).map fun r => escStr r.1 ++ (':' :: ' ' :: dumpsChars r.2)) ++
              ('\x7d' :: rest)) from by simp [skipWs, isWsChar]]
        obtain ⟨Z, hZ⟩ := joinSep_first (α := Unit) [',', ' ']
          (escStr q.1 ++ (':' :: ' ' :: dumpsChars q.2))
          (t2.map fun r => escStr r.1 ++ (':' :: ' ' :: dumpsChars r.2))
        rw [List.map_cons, hZ]
        rw [show (escStr q.1 ++ (':' :: ' ' :: dumpsChars q.2)) ++ Z ++ ('\x7d' :: rest) =
          '"' :: ((escChars q.1.data ++ ['"']) ++ ((':' :: ' ' :: dumpsChars q.2) ++
            (Z ++ ('\x7d' :: rest)))) from by simp [escStr]]
        rw [skipWs_cons_notWs (show isWsChar '"' = false from by decide)]
      rw [hskip2]
      have hmem := (ih f' (by omega)).2.2 (q :: t2) rest (by simp)
        (by rw [WFm] at hwfm; exact hwfm.2)
        (by rw [fsizeM] at hfs; omega) hrest
      rw [hmem]
      rfl

theorem printNat_length_pos (n : Nat) : 1 ≤ (printNat n).length := by
  rw [printNat_eq, List.length_map]
  have := natDigitsBE_ne_nil n
  cases h : natDigitsBE n with
  | nil => exact absurd h this
  | cons a t => simp

theorem dumps_length_pos (d : Json) : 1 ≤ (dumpsChars d).length := by
  obtain ⟨c, l, he, _⟩ := dumps_head_notWs d
  rw [he]
  simp

theorem size_bounds : ∀ n : Nat,
    (∀ d : Json, sizeOf d ≤ n → fsize d ≤ 2 * (dumpsChars d).length + 1) ∧
    (∀ xs : List Json, sizeOf xs ≤ n →
      fsizeE xs ≤ 2 * (joinSep [',', ' '] (xs.map dumpsChars)).length + 4) ∧
    (∀ kvs : List (String × Json), sizeOf kvs ≤ n →
      fsizeM kvs ≤ 2 * (joinSep [',', ' ']
        (kvs.map fun p => escStr p.1 ++ (':' :: ' ' :: dumpsChars p.2))).length + 4) := by
  intro n
  induction n using Nat.strong_induction_on with
  | _ n ih =>
  refine ⟨?_, ?_, ?_⟩
  · intro d hsz
    cases d with
    | arr xs =>
      have hx : sizeOf xs < sizeOf (Json.arr xs) := by
        simp [Json.arr.sizeOf_spec]
      have hb := (ih (n - 1) (by omega)).2.1 xs (by omega)
      rw [dumpsChars, attach_map_dumps, fsize]
      simp only [List.length_cons, List.length_append, List.length_cons, List.length_nil]
      omega
    | obj kvs =>
      have hx : sizeOf kvs < sizeOf (Json.obj kvs) := by
        simp [Json.obj.sizeOf_spec]
      have hb := (ih (n - 1) (by omega)).2.2 kvs (by omega)
      rw [dumpsChars, attach_map_members, fsize]
      simp only [List.length_cons, List.length_append, List.length_cons, List.length_nil]
      omega
    | null => have h1 := dumps_length_pos Json.null; simp [fsize]
    | bool b => have h1 := dumps_length_pos (Json.bool b); simp [fsize]
    | num m => have h1 := dumps_length_pos (Json.num m); simp [fsize]
    | flt m k => have h1 := dumps_length_pos (Json.flt m k); simp [fsize]
    | nan => have h1 := dumps_length_pos Json.nan; simp [fsize]
    | inf => have h1 := dumps_length_pos Json.inf; simp [fsize]
    | ninf => have h1 := dumps_length_pos Json.ninf; simp [fsize]
    | str s => have h1 := dumps_length_pos (Json.str s); simp [fsize]
  · intro xs hsz
    cases xs with
    | nil => simp [fsizeE, joinSep]
    | cons x t =>
      have hx : sizeOf x < sizeOf (x :: t) ∧ sizeOf t < sizeOf (x :: t) := by
        simp only [List.cons.sizeOf_spec]
        omega
      have hvx := (ih (n - 1) (by omega)).1 x (by omega)
      have hvt := (ih (n - 1) (by omega)).2.1 t (by omega)
      rw [fsizeE]
      cases t with
      | nil =>
        rw [show joinSep [',', ' '] ([x].map dumpsChars) = dumpsChars x from by simp [joinSep]]
        rw [fsizeE] at *
        omega
      | cons y t2 =>
        rw [show joinSep [',', ' '] ((x :: y :: t2).map dumpsChars) =
          dumpsChars x ++ ([',', ' '] ++ joinSep [',', ' '] ((y :: t2).map dumpsChars)) from by
            simp [joinSep]]
        simp only [List.length_append, List.length_cons, List.length_nil] at *
        omega
  · intro kvs hsz
    cases kvs with
    | nil => simp [fsizeM, joinSep]
    | cons p t =>
      have hx : sizeOf p.2 < sizeOf (p :: t) ∧ sizeOf t < sizeOf (p :: t) := by
        obtain ⟨a, b⟩ := p
        simp only [List.cons.sizeOf_spec, Prod.mk.sizeOf_spec]
        omega
      have hvx := (ih (n - 1) (by omega)).1 p.2 (by omega)
      have hvt := (ih (n - 1) (by omega)).2.2 t (by omega)
      rw [fsizeM]
      cases t with
      | nil =>
        rw [show joinSep [',', ' ']
            ([p].map fun q => escStr q.1 ++ (':' :: ' ' :: dumpsChars q.2)) =
          escStr p.1 ++ (':' :: ' ' :: dumpsChars p.2) from by simp [joinSep]]
        rw [fsizeM] at *
        simp only [List.length_append, List.length_cons, escStr, List.length_nil] at *
        omega
      | cons q t2 =>
        rw [show joinSep [',', ' ']
            ((p :: q :: t2).map fun r => escStr r.1 ++ (':' :: ' ' :: dumpsChars r.2)) =
          (escStr p.1 ++ (':' :: ' ' :: dumpsChars p.2)) ++ ([',', ' '] ++ joinSep [',', ' ']
            ((q :: t2).map fun r => escStr r.1 ++ (':' :: ' ' :: dumpsChars r.2))) from by
            simp [joinSep]]
        simp only [List.length_append, List.length_cons, List.length_nil] at *
        omega

/-- Round trip: `loads` undoes `dumps` on every normal-form value (in
particular on everything `loads` itself can produce). -/
theorem loads_dumps {d : Json} (h : WFj d) : loads (dumps d) = some d := by
  unfold loads dumps
  have hdata : (String.mk (dumpsChars d)).data = dumpsChars d := rfl
  rw [hdata]
  have hskip : skipWs (dumpsChars d) = dumpsChars d := by
    have := skipWs_dumps d []
    simpa using this
  rw [hskip]
  have hfs : fsize d ≤ 2 * (dumpsChars d).length + 4 := by
    have := (size_bounds (sizeOf d)).1 d (le_refl _)
    omega
  have hrt := (parseRT_all (2 * (dumpsChars d).length + 4)).1 d [] h hfs trivial
  rw [List.append_nil] at hrt
  rw [hrt]
  rfl

theorem strip10_wf : ∀ (k : Nat) (m : Int),
    (strip10 m k).2 = 0 ∨ ¬ (strip10 m k).1 % 10 = 0 := by
  intro k
  induction k with
  | zero => intro m; exact Or.inl rfl
  | succ kk ih =>
    intro m
    rw [strip10]
    by_cases h : m % 10 = 0
    · rw [if_pos h]
      exact ih (m / 10)
    · rw [if_neg h]
      exact Or.inr h

theorem wfj_flt_ite (c : Prop) [Decidable c] (a m : Int) (k : Nat) :
    WFj (if c then Json.flt a 0 else Json.flt (strip10 m k).1 (strip10 m k).2) := by
  by_cases h : c
  · rw [if_pos h]
    simp [WFj]
  · rw [if_neg h]
    simp only [WFj]
    exact strip10_wf _ _

theorem mkFlt_wf (neg : Bool) (i fr fcnt : Nat) (esign : Bool) (e : Nat) :
    WFj (mkFlt neg i fr fcnt esign e) := by
  unfold mkFlt
  repeat' split
  all_goals exact wfj_flt_ite _ _ _ _

theorem finishNumber_wf {neg : Bool} {i fr fcnt : Nat} {hasFrac : Bool} {r : List Char}
    {j : Json} {r2 : List Char} (h : finishNumber neg i fr fcnt hasFrac r = some (j, r2)) :
    WFj j := by
  unfold finishNumber at h
  split at h
  · split at h
    · exact absurd h (by simp)
    · simp only [Option.some.injEq, Prod.mk.injEq] at h
      rw [← h.1]
      exact mkFlt_wf _ _ _ _ _ _
  · split at h
    · exact absurd h (by simp)
    · simp only [Option.some.injEq, Prod.mk.injEq] at h
      rw [← h.1]
      exact mkFlt_wf _ _ _ _ _ _
  · split at h
    · simp only [Option.some.injEq, Prod.mk.injEq] at h
      rw [← h.1]
      exact mkFlt_wf _ _ _ _ _ _
    · simp only [Option.some.injEq, Prod.mk.injEq] at h
      rw [← h.1]
      simp only [WFj]

theorem parseNumCore_wf {neg : Bool} {cs : List Char} {j : Json} {r : List Char}
    (h : parseNumCore neg cs = some (j, r)) : WFj j := by
  unfold parseNumCore at h
  split at h
  split at h
  · exact absurd h (by simp)
  split at h
  · exact absurd h (by simp)
  split at h
  · split at h
    split at h
    · exact absurd h (by simp)
    · exact finishNumber_wf h
  · exact finishNumber_wf h

theorem parseNumber_wf {cs : List Char} {j : Json} {r : List Char}
    (h : parseNumber cs = some (j, r)) : WFj j := by
  unfold parseNumber at h
  split at h
  · split at h
    · simp only [Option.some.injEq, Prod.mk.injEq] at h
      rw [← h.1]
      simp only [WFj]
    · exact parseNumCore_wf h
  · exact parseNumCore_wf h

theorem keysOf_insertKV (acc : List (String × Json)) (k : String) (v : Json) :
    keysOf (insertKV acc k v) = if k ∈ keysOf acc then keysOf acc else keysOf acc ++ [k] := by
  induction acc with
  | nil => simp [insertKV, keysOf]
  | cons p t ih =>
    obtain ⟨pk, pv⟩ := p
    by_cases he : pk = k
    · subst he
      simp [insertKV, keysOf]
    · rw [show insertKV ((pk, pv) :: t) k v = (pk, pv) :: insertKV t k v from by
        simp [insertKV, he]]
      rw [show keysOf ((pk, pv) :: insertKV t k v) = pk :: keysOf (insertKV t k v) from rfl]
      rw [show keysOf ((pk, pv) :: t) = pk :: keysOf t from rfl, ih]
      by_cases hm : k ∈ keysOf t
      · rw [if_pos hm, if_pos (by simp [hm])]
      · rw [if_neg hm, if_neg (by simp [hm, Ne.symm he])]
        rfl

theorem insertKV_nodup {acc : List (String × Json)} (h : (keysOf acc).Nodup)
    (k : String) (v : Json) : (keysOf (insertKV acc k v)).Nodup := by
  rw [keysOf_insertKV]
  by_cases hm : k ∈ keysOf acc
  · rw [if_pos hm]
    exact h
  · rw [if_neg hm]
    simp [List.nodup_append, h, hm]

theorem insertKV_WFm {acc : List (String × Json)} (h : WFm acc) {v : Json} (hv : WFj v)
    (k : String) : WFm (insertKV acc k v) := by
  induction acc with
  | nil => simp [insertKV, WFm]; exact hv
  | cons p t ih =>
    obtain ⟨pk, pv⟩ := p
    rw [WFm] at h
    by_cases he : pk = k
    · subst he
      rw [show insertKV ((pk, pv) :: t) pk v = (pk, v) :: t from by simp [insertKV]]
      rw [WFm]
      exact ⟨hv, h.2⟩
    · rw [show insertKV ((pk, pv) :: t) k v = (pk, pv) :: insertKV t k v from by
        simp [insertKV, he]]
      rw [WFm]
      exact ⟨h.1, ih h.2⟩

theorem buildObj_wf {ps : List (String × Json)} (h : WFm ps) :
    (keysOf (buildObj ps)).Nodup ∧ WFm (buildObj ps) := by
  unfold buildObj
  suffices hgen : ∀ (qs : List (String × Json)) (acc : List (String × Json)), WFm qs →
      (keysOf acc).Nodup → WFm acc →
      (keysOf (qs.foldl (fun a p => insertKV a p.1 p.2) acc)).Nodup ∧
        WFm (qs.foldl (fun a p => insertKV a p.1 p.2) acc) by
    exact hgen ps [] h (by simp [keysOf]) trivial
  intro qs
  induction qs with
  | nil => intro acc _ h1 h2; exact ⟨h1, h2⟩
  | cons p t ih =>
    intro acc hq h1 h2
    rw [WFm] at hq
    simp only [List.foldl_cons]
    exact ih (insertKV acc p.1 p.2) hq.2 (insertKV_nodup h1 _ _) (insertKV_WFm h2 hq.1 _)

theorem parseWF_all : ∀ f : Nat,
    (∀ cs d r, parseVal f cs = some (d, r) → WFj d) ∧
    (∀ cs xs r, parseElems f cs = some (xs, r) → WFe xs) ∧
    (∀ cs ps r, parseMembers f cs = some (ps, r) → WFm ps) := by
  intro f
  induction f using Nat.strong_induction_on with
  | _ f ih =>
  obtain (rfl | ⟨f', rfl⟩) : f = 0 ∨ ∃ f', f = f' + 1 := by
    cases f with
    | zero => exact Or.inl rfl
    | succ n => exact Or.inr ⟨n, rfl⟩
  · refine ⟨?_, ?_, ?_⟩ <;> intro cs a r h <;>
      exact absurd h (by simp [parseVal, parseElems, parseMembers])
  refine ⟨?_, ?_, ?_⟩
  · intro cs d r h
    cases cs with
    | nil => exact absurd h (by simp [parseVal])
    | cons c cs1 =>
      simp only [parseVal] at h
      split at h
      · -- [] arm (impossible)
        exact absurd h (by simp)
      · -- open brace
        split at h
        · simp only [Option.some.injEq, Prod.mk.injEq] at h
          rw [← h.1]
          simp only [WFj]
          exact ⟨by simp [keysOf], by simp [WFm]⟩
        · rw [Option.map_eq_some'] at h
          obtain ⟨p, hp, he⟩ := h
          have hm := (ih f' (by omega)).2.2 _ _ _ hp
          have hb := buildObj_wf hm
          rw [show d = Json.obj (buildObj p.1) from by
            have := congrArg Prod.fst he
            simp at this
            exact this.symm]
          simp only [WFj]
          exact hb
      · -- open bracket
        split at h
        · simp only [Option.some.injEq, Prod.mk.injEq] at h
          rw [← h.1]
          simp only [WFj]
          simp [WFe]
        · rw [Option.map_eq_some'] at h
          obtain ⟨p, hp, he⟩ := h
          have hm := (ih f' (by omega)).2.1 _ _ _ hp
          rw [show d = Json.arr p.1 from by
            have := congrArg Prod.fst he
            simp at this
            exact this.symm]
          simp only [WFj]
          exact hm
      · -- quote
        rw [Option.map_eq_some'] at h
        obtain ⟨p, hp, he⟩ := h
        rw [show d = Json.str ⟨p.1⟩ from by
          have := congrArg Prod.fst he
          simp at this
          exact this.symm]
        simp [WFj]
      · rw [Option.map_eq_some'] at h
        obtain ⟨r2, _, he⟩ := h
        rw [show d = Json.bool true from by
          have := congrArg Prod.fst he
          simp at this
          exact this.symm]
        simp [WFj]
      · rw [Option.map_eq_some'] at h
        obtain ⟨r2, _, he⟩ := h
        rw [show d = Json.bool false from by
          have := congrArg Prod.fst he
          simp at this
          exact this.symm]
        simp [WFj]
      · rw [Option.map_eq_some'] at h
        obtain ⟨r2, _, he⟩ := h
        rw [show d = Json.null from by
          have := congrArg Prod.fst he
          simp at this
          exact this.symm]
        simp [WFj]
      · rw [Option.map_eq_some'] at h
        obtain ⟨r2, _, he⟩ := h
        rw [show d = Json.nan from by
          have := congrArg Prod.fst he
          simp at this
          exact this.symm]
        simp [WFj]
      · rw [Option.map_eq_some'] at h
        obtain ⟨r2, _, he⟩ := h
        rw [show d = Json.inf from by
          have := congrArg Prod.fst he
          simp at this
          exact this.symm]
        simp [WFj]
      · split at h
        · exact parseNumber_wf h
        · exact absurd h (by simp)
  · intro cs xs r h
    simp only [parseElems] at h
    split at h
    · exact absurd h (by simp)
    · rename_i v r0 heqv
      split at h
      · rw [Option.map_eq_some'] at h
        obtain ⟨p, hp, he⟩ := h
        have hv := (ih f' (by omega)).1 _ _ _ heqv
        have ht := (ih f' (by omega)).2.1 _ _ _ hp
        rw [show xs = v :: p.1 from by
          have := congrArg Prod.fst he
          simp at this
          exact this.symm]
        rw [WFe]
        exact ⟨hv, ht⟩
      · simp only [Option.some.injEq, Prod.mk.injEq] at h
        have hv := (ih f' (by omega)).1 _ _ _ heqv
        rw [← h.1, WFe]
        exact ⟨hv, trivial⟩
      · exact absurd h (by simp)
  · intro cs ps r h
    cases cs with
    | nil => exact absurd h (by simp [parseMembers])
    | cons c cs1 =>
      simp only [parseMembers] at h
      split at h
      · -- quote arm
        split at h
        · exact absurd h (by simp)
        · rename_i k r1 heqk
          split at h
          · rename_i r2 heqc
            split at h
            · exact absurd h (by simp)
            · rename_i v r3 heqv
              have hv := (ih f' (by omega)).1 _ _ _ heqv
              split at h
              · rw [Option.map_eq_some'] at h
                obtain ⟨p, hp, he⟩ := h
                have ht := (ih f' (by omega)).2.2 _ _ _ hp
                rw [show ps = (String.mk k, v) :: p.1 from by
                  have := congrArg Prod.fst he
                  simp at this
                  exact this.symm]
                rw [WFm]
                exact ⟨hv, ht⟩
              · simp only [Option.some.injEq, Prod.mk.injEq] at h
                rw [← h.1, WFm]
                exact ⟨hv, trivial⟩
              · exact absurd h (by simp)
          · exact absurd h (by simp)
      · exact absurd h (by simp)

/-- Everything `loads` produces is in normal form. -/
theorem loads_WF {s : String} {d : Json} (h : loads s = some d) : WFj d := by
  unfold loads at h
  split at h
  · rename_i j r heq
    split at h
    · have hwf := (parseWF_all _).1 _ _ _ heq
      simp only [Option.some.injEq] at h
      rw [← h]
      exact hwf
    · exact absurd h (by simp)
  · exact absurd h (by simp)

theorem toUpper_eq (c : Char) :
    c.toUpper = if c.toNat ≥ 97 ∧ c.toNat ≤ 122 then Char.ofNat (c.toNat - 32) else c := rfl

theorem charToUpper_idem (c : Char) : (Char.toUpper c).toUpper = c.toUpper := by
  rw [toUpper_eq c]
  by_cases h : c.toNat ≥ 97 ∧ c.toNat ≤ 122
  · rw [if_pos h, toUpper_eq]
    have hv : (c.toNat - 32).isValidChar := Or.inl (by omega)
    rw [charToNat_ofNat hv, if_neg (by omega)]
  · rw [if_neg h, toUpper_eq, if_neg h]

theorem pyUpper_idem (s : String) : pyUpper (pyUpper s) = pyUpper s := by
  unfold pyUpper
  have hdata : (String.mk (s.data.map Char.toUpper)).data = s.data.map Char.toUpper := rfl
  rw [hdata, List.map_map,
    show Char.toUpper ∘ Char.toUpper = Char.toUpper from funext fun c => charToUpper_idem c]

theorem lookup_insertKV_self (kvs : List (String × Json)) (k : String) (v : Json) :
    lookupKV (insertKV kvs k v) k = some v := by
  induction kvs with
  | nil => simp [insertKV, lookupKV]
  | cons p t ih =>
    obtain ⟨pk, pv⟩ := p
    by_cases he : pk = k
    · subst he
      simp [insertKV, lookupKV]
    · simp [insertKV, lookupKV, he, ih]

theorem lookup_insertKV_ne (kvs : List (String × Json)) {k k' : String} (h : k' ≠ k)
    (v : Json) : lookupKV (insertKV kvs k v) k' = lookupKV kvs k' := by
  induction kvs with
  | nil => simp [insertKV, lookupKV, Ne.symm h]
  | cons p t ih =>
    obtain ⟨pk, pv⟩ := p
    by_cases he : pk = k
    · subst he
      rw [show insertKV ((pk, pv) :: t) pk v = (pk, v) :: t from by simp [insertKV]]
      rw [show lookupKV ((pk, v) :: t) k' = if pk = k' then some v else lookupKV t k' from rfl]
      rw [show lookupKV ((pk, pv) :: t) k' = if pk = k' then some pv else lookupKV t k' from rfl]
      rw [if_neg (fun hc => h hc.symm), if_neg (fun hc => h hc.symm)]
    · simp only [insertKV, if_neg he]
      rw [show lookupKV ((pk, pv) :: insertKV t k v) k' =
        if pk = k' then some pv else lookupKV (insertKV t k v) k' from rfl]
      rw [show lookupKV ((pk, pv) :: t) k' = if pk = k' then some pv else lookupKV t k' from rfl]
      by_cases hk : pk = k'
      · rw [if_pos hk, if_pos hk]
      · rw [if_neg hk, if_neg hk, ih]

theorem insert_insertKV_self (kvs : List (String × Json)) (k : String) (v w : Json) :
    insertKV (insertKV kvs k v) k w = insertKV kvs k w := by
  induction kvs with
  | nil => simp [insertKV]
  | cons p t ih =>
    obtain ⟨pk, pv⟩ := p
    by_cases he : pk = k
    · subst he
      simp [insertKV]
    · simp [insertKV, he, ih]

theorem containsKV_insert_self (kvs : List (String × Json)) (k : String) (v : Json) :
    containsKV (insertKV kvs k v) k = true := by
  unfold containsKV
  rw [lookup_insertKV_self]
  rfl

theorem containsKV_true_iff (kvs : List (String × Json)) (k : String) :
    containsKV kvs k = true ↔ ∃ v, lookupKV kvs k = some v := by
  unfold containsKV
  cases h : lookupKV kvs k <;> simp [Option.isSome]

theorem WFj_obj_insert {kvs : List (String × Json)} (h : WFj (Json.obj kvs))
    {v : Json} (hv : WFj v) (k : String) : WFj (Json.obj (insertKV kvs k v)) := by
  simp only [WFj] at h ⊢
  exact ⟨insertKV_nodup h.1 k v, insertKV_WFm h.2 hv k⟩

theorem keysOf_insertKV_of_contains {kvs : List (String × Json)} {k : String}
    (h : containsKV kvs k = true) (v : Json) : keysOf (insertKV kvs k v) = keysOf kvs := by
  rw [keysOf_insertKV, if_pos]
  rw [containsKV_true_iff] at h
  obtain ⟨w, hw⟩ := h
  induction kvs with
  | nil => simp [lookupKV] at hw
  | cons p t ih =>
    obtain ⟨pk, pv⟩ := p
    by_cases he : pk = k
    · subst he
      simp [keysOf]
    · rw [show lookupKV ((pk, pv) :: t) k = if pk = k then some pv else lookupKV t k from rfl,
        if_neg he] at hw
      simp only [keysOf, List.map_cons, List.mem_cons]
      exact Or.inr (ih hw)

theorem addDecision_balance {rep : JobReport} (k : String) (d : Decision) (err : Option String)
    (h : rep.scanned = rep.skipped + rep.transformed + rep.failed + rep.unchanged) :
    (addDecision rep k d err).scanned =
      (addDecision rep k d err).skipped + (addDecision rep k d err).transformed +
        (addDecision rep k d err).failed + (addDecision rep k d err).unchanged := by
  cases d <;> simp [addDecision] <;> omega

/-- C5: in every completed job the JobReport counters balance: each scanned
record receives exactly one of the four Decisions, so
scanned = skipped + transformed + failed + unchanged. -/
theorem claim_C5 (cb : Callbacks) (records : List (String × String)) :
    (runReal cb records).report.scanned =
      (runReal cb records).report.skipped + (runReal cb records).report.transformed +
        (runReal cb records).report.failed + (runReal cb records).report.unchanged := by
  induction records with
  | nil => rfl
  | cons p rs ih =>
    obtain ⟨k, v⟩ := p
    simp only [runReal]
    exact addDecision_balance k _ _ ih

/-- C6: a dry-run and a real run over the same scanned records (the same
seeded store) compute the same per-key Decision sequence; they differ only
in the terminal action, and the dry run's recorded (key, old, new) entries
name exactly the writes the real run would stage. -/
theorem claim_C6 (cb : Callbacks) (records : List (String × String)) :
    (runReal cb records).decisions = (runDry cb records).decisions ∧
      (runReal cb records).writes =
        (runDry cb records).entries.map (fun e => (e.1, e.2.2)) := by
  induction records with
  | nil => exact ⟨rfl, rfl⟩
  | cons p rs ih =>
    obtain ⟨k, v⟩ := p
    simp only [runReal, runDry]
    constructor
    · simp only [ih.1]
    · generalize (match cb.predicate with
        | some pr =>
          match pr k v with
          | Except.error e => (Decision.failed, none, some e)
          | Except.ok false => (Decision.skipped, none, none)
          | Except.ok true =>
            match cb.transform k v with
            | Except.error e => (Decision.failed, none, some e)
            | Except.ok nv =>
              if nv = v then (Decision.unchanged, none, none)
              else (Decision.transformed, some nv, none)
        | none =>
          match cb.transform k v with
          | Except.error e => (Decision.failed, none, some e)
          | Except.ok nv =>
            if nv = v then (Decision.unchanged, none, none)
            else (Decision.transformed, some nv, none) :
          Decision × Option String × Option String) = st
      obtain ⟨d, stg, err⟩ := st
      cases stg <;> simp [ih.2]

/-- C3: the filter_by_age callbacks are total Lean functions (the scripts
catch every exception with a bare `except:`), so the callback host only
ever hands the engine `Except.ok` results; a job running them over any
scanned records reports failed = 0 and records no failure entries. -/
theorem claim_C3 (records : List (String × String)) :
    (runReal fbaCallbacks records).report.failed = 0 ∧
      (runReal fbaCallbacks records).report.failures = [] := by
  induction records with
  | nil => exact ⟨rfl, rfl⟩
  | cons p rs ih =>
    obtain ⟨k, v⟩ := p
    have hp : fbaCallbacks.predicate =
        some (fun a b => Except.ok (filter_by_age.should_process a b)) := rfl
    have ht : fbaCallbacks.transform =
        fun a b => Except.ok (filter_by_age.transform_value a b) := rfl
    simp only [runReal, hp, ht]
    cases hb : filter_by_age.should_process k v <;> simp only [hb]
    · exact ⟨by simp [addDecision, ih.1], by simp [addDecision, ih.2]⟩
    · by_cases he : filter_by_age.transform_value k v = v
      · simp only [if_pos he]
        exact ⟨by simp [addDecision, ih.1], by simp [addDecision, ih.2]⟩
      · simp only [if_neg he]
        exact ⟨by simp [addDecision, ih.1], by simp [addDecision, ih.2]⟩

/-- C8: every example transform degrades to the identity on malformed
input — when the value is not valid JSON, `json.loads` raises, the bare
`except:` catches, and all four transform_value functions return the value
unchanged. -/
theorem claim_C8 (now_iso key value : String) (h : loads value = none) :
    add_timestamp.transform_value now_iso key value = value ∧
    filter_by_age.transform_value key value = value ∧
    flatten_nested_json.transform_value key value = value ∧
    transform_uppercase_name.transform_value key value = value := by
  refine ⟨?_, ?_, ?_, ?_⟩
  · unfold add_timestamp.transform_value
    rw [h]
  · unfold filter_by_age.transform_value
    rw [h]
  · unfold flatten_nested_json.transform_value
    rw [h]
  · unfold transform_uppercase_name.transform_value
    rw [h]

/-- C8 witness: the concrete non-JSON value "not json" is returned
unchanged by all four transforms. -/
theorem claim_C8_witness :
    add_timestamp.transform_value "2024-05-01T00:00:00" "user:1" "not json" = "not json" ∧
    filter_by_age.transform_value "user:1" "not json" = "not json" ∧
    flatten_nested_json.transform_value "user:1" "not json" = "not json" ∧
    transform_uppercase_name.transform_value "user:1" "not json" = "not json" :=
  claim_C8 "2024-05-01T00:00:00" "user:1" "not json" rfl

/-- C7: the uppercase-name predicate does not reject every valueless
record: on the value (the JSON array text holding the one string "name")
the parsed document is an array, which has no 'name' field, yet
`'name' in data` is Python list membership, so should_process returns
True — contradicting the script's own docstring ("Only process entries
that have a 'name' field") and the spec's expectation that the predicate
rejects records without the field. -/
theorem claim_C7 :
    loads "[\"name\"]" = some (Json.arr [Json.str "name"]) ∧
      transform_uppercase_name.should_process "k" "[\"name\"]" = true := by
  exact ⟨rfl, rfl⟩

theorem containsKV_false {kvs : List (String × Json)} {k : String}
    (h : containsKV kvs k = false) : lookupKV kvs k = none := by
  unfold containsKV at h
  cases hl : lookupKV kvs k
  · rfl
  · rw [hl] at h
    simp [Option.isSome] at h

/-- What the filter_by_age predicate accepts, characterized against the
parser: exactly the JSON objects whose 'age' member is a number above 30. -/
theorem fba_should_process_iff (key value : String) :
    filter_by_age.should_process key value = true ↔
      ∃ kvs j, loads value = some (Json.obj kvs) ∧ lookupKV kvs "age" = some j ∧
        ((∃ n : Int, j = Json.num n ∧ 30 < n) ∨
         (∃ (m : Int) (k : Nat), j = Json.flt m k ∧ 30 * 10 ^ k < m) ∨
         j = Json.inf) := by
  unfold filter_by_age.should_process
  cases hl : loads value with
  | none => simp [hl]
  | some d =>
    cases d with
    | obj kvs =>
      simp only [pyContains]
      cases hc : containsKV kvs "age" with
      | false =>
        have hnone := containsKV_false hc
        simp [hnone]
      | true =>
        obtain ⟨j, hj⟩ := (containsKV_true_iff kvs "age").mp hc
        simp only [pyGetItem, hj]
        cases j with
        | num n => simp [pyGtInt, hj]
        | flt m k =>
          simp [pyGtInt, hj]
          constructor
          · intro h
            exact ⟨m, k, ⟨rfl, rfl⟩, h⟩
          · rintro ⟨m1, k1, ⟨rfl, rfl⟩, h⟩
            exact h
        | inf => simp [pyGtInt, hj]
        | ninf => simp [pyGtInt, hj]
        | nan => simp [pyGtInt, hj]
        | bool b => cases b <;> simp [pyGtInt, hj]
        | null => simp [pyGtInt, hj]
        | str s => simp [pyGtInt, hj]
        | arr xs => simp [pyGtInt, hj]
        | obj kvs2 => simp [pyGtInt, hj]
    | arr xs =>
      simp only [pyContains]
      cases hc : (xs.any fun x => match x with | Json.str s => s == "age" | _ => false) <;>
        simp [pyGetItem]
    | str s =>
      simp only [pyContains]
      cases hc : containsSub s.data "age".data <;> simp [pyGetItem]
    | null => simp [pyContains]
    | bool b => simp [pyContains]
    | num n => simp [pyContains]
    | flt m k => simp [pyContains]
    | nan => simp [pyContains]
    | inf => simp [pyContains]
    | ninf => simp [pyContains]

/-- C2: the filter_by_age predicate accepts exactly the records whose
value parses as a JSON object with a numeric 'age' member exceeding 30
(an int above 30, a float above 30, or the Infinity extension); for a
value that is not valid JSON, parses to something other than an object,
or lacks an 'age' member, it returns False. -/
theorem claim_C2 (key value : String) :
    filter_by_age.should_process key value = true ↔
      ∃ kvs j, loads value = some (Json.obj kvs) ∧ lookupKV kvs "age" = some j ∧
        ((∃ n : Int, j = Json.num n ∧ 30 < n) ∨
         (∃ (m : Int) (k : Nat), j = Json.flt m k ∧ 30 * 10 ^ k < m) ∨
         j = Json.inf) :=
  fba_should_process_iff key value

/-- C9: a record accepted by filter_by_age (numeric age above 30) is
transformed by adding an age_group label that is "middle" exactly when
age < 35 and "senior" otherwise; the "young" label is never produced for
an accepted record.  The output string parses back to the input object
with just the age_group member set. -/
theorem claim_C9 (key value : String) (h : filter_by_age.should_process key value = true) :
    ∃ kvs age, loads value = some (Json.obj kvs) ∧ lookupKV kvs "age" = some age ∧
      ∃ g, loads (filter_by_age.transform_value key value) =
          some (Json.obj (insertKV kvs "age_group" (Json.str g))) ∧
        (g = "middle" ∨ g = "senior") ∧
        (g = "middle" ↔ pyLtInt age 35 = some true) := by
  obtain ⟨kvs, j, hl, hj, hnum⟩ := (fba_should_process_iff key value).mp h
  have hwf := loads_WF hl
  refine ⟨kvs, j, hl, hj, ?_⟩
  unfold filter_by_age.transform_value
  rw [hl]
  simp only [hj, Option.getD_some]
  rcases hnum with ⟨n, rfl, hn⟩ | ⟨m, k, rfl, hm⟩ | rfl
  · rw [show pyLtInt (Json.num n) 25 = some false from by
      simp only [pyLtInt, Option.some.injEq]
      simp only [decide_eq_false_iff_not]
      omega]
    by_cases h35 : n < 35
    · rw [show pyLtInt (Json.num n) 35 = some true from by simp [pyLtInt, h35]]
      exact ⟨"middle", loads_dumps (WFj_obj_insert hwf (by simp [WFj]) _), Or.inl rfl,
        by simp [pyLtInt, h35]⟩
    · rw [show pyLtInt (Json.num n) 35 = some false from by
        simp only [pyLtInt, Option.some.injEq]
        simp only [decide_eq_false_iff_not]
        omega]
      refine ⟨"senior", loads_dumps (WFj_obj_insert hwf (by simp [WFj]) _), Or.inr rfl, ?_⟩
      constructor
      · intro hg
        exact absurd hg (by decide)
      · intro hg
        exact absurd hg (by simp)
  · have hP : (0 : Int) ≤ 10 ^ k := by positivity
    rw [show pyLtInt (Json.flt m k) 25 = some false from by
      simp only [pyLtInt, Option.some.injEq]
      simp only [decide_eq_false_iff_not]
      omega]
    by_cases h35 : m < 35 * 10 ^ k
    · rw [show pyLtInt (Json.flt m k) 35 = some true from by simp [pyLtInt, h35]]
      exact ⟨"middle", loads_dumps (WFj_obj_insert hwf (by simp [WFj]) _), Or.inl rfl,
        by simp [pyLtInt, h35]⟩
    · rw [show pyLtInt (Json.flt m k) 35 = some false from by
        simp only [pyLtInt, Option.some.injEq]
        simp only [decide_eq_false_iff_not]
        omega]
      refine ⟨"senior", loads_dumps (WFj_obj_insert hwf (by simp [WFj]) _), Or.inr rfl, ?_⟩
      constructor
      · intro hg
        exact absurd hg (by decide)
      · intro hg
        exact absurd hg (by simp)
  · rw [show pyLtInt Json.inf 25 = some false from rfl]
    rw [show pyLtInt Json.inf 35 = some false from rfl]
    refine ⟨"senior", loads_dumps (WFj_obj_insert hwf (by simp [WFj]) _), Or.inr rfl, ?_⟩
    constructor
    · intro hg
      exact absurd hg (by decide)
    · intro hg
      exact absurd hg (by simp)

/-- C9 witness: on the concrete record with age 32 the predicate accepts
and the transform labels it "middle". -/
theorem claim_C9_witness :
    ∃ kvs age, loads "\x7b\"age\": 32\x7d" = some (Json.obj kvs) ∧
      lookupKV kvs "age" = some age ∧
      ∃ g, loads (filter_by_age.transform_value "user:1" "\x7b\"age\": 32\x7d") =
          some (Json.obj (insertKV kvs "age_group" (Json.str g))) ∧
        (g = "middle" ∨ g = "senior") ∧
        (g = "middle" ↔ pyLtInt age 35 = some true) :=
  claim_C9 "user:1" "\x7b\"age\": 32\x7d" rfl

/-- C10 (amended): the uppercase-name transform touches only the 'name'
member: the output parses to an object with the same key set, every other
member unchanged; when 'name' holds a string its value is uppercased, and
when 'name' is absent or holds a non-string (on which `.upper()` raises)
every member including 'name' is unchanged. -/
theorem claim_C10 (key value : String) (kvs : List (String × Json))
    (h : loads value = some (Json.obj kvs)) :
    ∃ kvs', loads (transform_uppercase_name.transform_value key value) =
        some (Json.obj kvs') ∧
      keysOf kvs' = keysOf kvs ∧
      (∀ f2, f2 ≠ "name" → lookupKV kvs' f2 = lookupKV kvs f2) ∧
      ((∃ s, lookupKV kvs "name" = some (Json.str s) ∧
          lookupKV kvs' "name" = some (Json.str (pyUpper s))) ∨
        ((∀ s, lookupKV kvs "name" ≠ some (Json.str s)) ∧
          lookupKV kvs' "name" = lookupKV kvs "name")) := by
  have hwf := loads_WF h
  unfold transform_uppercase_name.transform_value
  rw [h]
  simp only [pyContains]
  cases hc : containsKV kvs "name" with
  | false =>
    have hnone := containsKV_false hc
    refine ⟨kvs, loads_dumps hwf, rfl, fun _ _ => rfl, Or.inr ⟨?_, rfl⟩⟩
    intro s hs
    rw [hnone] at hs
    exact absurd hs (by simp)
  | true =>
    obtain ⟨j, hj⟩ := (containsKV_true_iff kvs "name").mp hc
    rw [hj]
    cases j with
    | str s =>
      refine ⟨insertKV kvs "name" (Json.str (pyUpper s)),
        loads_dumps (WFj_obj_insert hwf (by simp [WFj]) _),
        keysOf_insertKV_of_contains hc _,
        fun f2 hf2 => lookup_insertKV_ne kvs hf2 _,
        Or.inl ⟨s, rfl, lookup_insertKV_self kvs "name" _⟩⟩
    | num n =>
      exact ⟨kvs, h, rfl, fun _ _ => rfl, Or.inr ⟨fun s hs => absurd hs (by simp), hj⟩⟩
    | flt m k =>
      exact ⟨kvs, h, rfl, fun _ _ => rfl, Or.inr ⟨fun s hs => absurd hs (by simp), hj⟩⟩
    | bool b =>
      exact ⟨kvs, h, rfl, fun _ _ => rfl, Or.inr ⟨fun s hs => absurd hs (by simp), hj⟩⟩
    | null =>
      exact ⟨kvs, h, rfl, fun _ _ => rfl, Or.inr ⟨fun s hs => absurd hs (by simp), hj⟩⟩
    | nan =>
      exact ⟨kvs, h, rfl, fun _ _ => rfl, Or.inr ⟨fun s hs => absurd hs (by simp), hj⟩⟩
    | inf =>
      exact ⟨kvs, h, rfl, fun _ _ => rfl, Or.inr ⟨fun s hs => absurd hs (by simp), hj⟩⟩
    | ninf =>
      exact ⟨kvs, h, rfl, fun _ _ => rfl, Or.inr ⟨fun s hs => absurd hs (by simp), hj⟩⟩
    | arr xs =>
      exact ⟨kvs, h, rfl, fun _ _ => rfl, Or.inr ⟨fun s hs => absurd hs (by simp), hj⟩⟩
    | obj kvs2 =>
      exact ⟨kvs, h, rfl, fun _ _ => rfl, Or.inr ⟨fun s hs => absurd hs (by simp), hj⟩⟩

/-- C10 witness: on the record whose name is "bob" the transform uppercases
the name in place. -/
theorem claim_C10_witness :
    ∃ kvs', loads (transform_uppercase_name.transform_value "user:1"
        "\x7b\"name\": \"bob\"\x7d") = some (Json.obj kvs') ∧
      keysOf kvs' = keysOf [("name", Json.str "bob")] ∧
      (∀ f2, f2 ≠ "name" →
        lookupKV kvs' f2 = lookupKV [("name", Json.str "bob")] f2) ∧
      ((∃ s, lookupKV [("name", Json.str "bob")] "name" = some (Json.str s) ∧
          lookupKV kvs' "name" = some (Json.str (pyUpper s))) ∨
        ((∀ s, lookupKV [("name", Json.str "bob")] "name" ≠ some (Json.str s)) ∧
          lookupKV kvs' "name" = lookupKV [("name", Json.str "bob")] "name")) :=
  claim_C10 "user:1" "\x7b\"name\": \"bob\"\x7d" [("name", Json.str "bob")] rfl

/-- C10 counterexample: the claim as stated says that a present 'name'
member of the output is the uppercase of the original; on the value whose
'name' member is the number 5 (which parses as a JSON object) there is no
string the original 'name' equals, so the claim fails there — the code
raises inside `.upper()` and returns the value unchanged instead. -/
theorem claim_C10_counterexample :
    ¬ (∀ (key value : String) (kvs : List (String × Json)) (j : Json),
        loads value = some (Json.obj kvs) → lookupKV kvs "name" = some j →
        ∃ s, j = Json.str s ∧
          ∃ kvs', loads (transform_uppercase_name.transform_value key value) =
              some (Json.obj kvs') ∧
            lookupKV kvs' "name" = some (Json.str (pyUpper s))) := by
  intro hall
  obtain ⟨s, hs, -⟩ :=
    hall "k" "\x7b\"name\": 5\x7d" [("name", Json.num 5)] (Json.num 5) rfl rfl
  cases hs

/-- C4: the uppercase-name transform is idempotent: applying transform_value
to its own result returns that result unchanged, for every key and value. -/
theorem claim_C4 (key value : String) :
    transform_uppercase_name.transform_value key
        (transform_uppercase_name.transform_value key value) =
      transform_uppercase_name.transform_value key value := by
  cases hl : loads value with
  | none =>
    have h1 : transform_uppercase_name.transform_value key value = value := by
      unfold transform_uppercase_name.transform_value
      rw [hl]
    rw [h1]
    exact h1
  | some d =>
    have hwf := loads_WF hl
    cases d with
    | obj kvs =>
      unfold transform_uppercase_name.transform_value
      rw [hl]
      cases hc : containsKV kvs "name" with
      | false =>
        simp only [pyContains, hc]
        rw [loads_dumps hwf]
        simp only [pyContains, hc]
      | true =>
        simp only [pyContains, hc]
        obtain ⟨j, hj⟩ := (containsKV_true_iff kvs "name").mp hc
        rw [hj]
        cases j with
        | str s =>
          simp only []
          have hwf2 : WFj (Json.obj (insertKV kvs "name" (Json.str (pyUpper s)))) :=
            WFj_obj_insert hwf (by simp [WFj]) _
          rw [loads_dumps hwf2]
          simp only [pyContains, containsKV_insert_self, lookup_insertKV_self]
          rw [pyUpper_idem, insert_insertKV_self]
        | num n =>
          simp only []
          rw [hl]
          simp only [pyContains, hc, hj]
        | flt m k =>
          simp only []
          rw [hl]
          simp only [pyContains, hc, hj]
        | bool b =>
          simp only []
          rw [hl]
          simp only [pyContains, hc, hj]
        | null =>
          simp only []
          rw [hl]
          simp only [pyContains, hc, hj]
        | nan =>
          simp only []
          rw [hl]
          simp only [pyContains, hc, hj]
        | inf =>
          simp only []
          rw [hl]
          simp only [pyContains, hc, hj]
        | ninf =>
          simp only []
          rw [hl]
          simp only [pyContains, hc, hj]
        | arr xs =>
          simp only []
          rw [hl]
          simp only [pyContains, hc, hj]
        | obj kvs2 =>
          simp only []
          rw [hl]
          simp only [pyContains, hc, hj]
    | arr xs =>
      unfold transform_uppercase_name.transform_value
      rw [hl]
      cases hc : (xs.any fun x => match x with | Json.str s2 => s2 == "name" | _ => false) with
      | false =>
        simp only [pyContains, hc]
        rw [loads_dumps hwf]
        simp only [pyContains, hc]
      | true =>
        simp only [pyContains, hc]
        rw [hl]
        simp only [pyContains, hc]
    | str s =>
      unfold transform_uppercase_name.transform_value
      rw [hl]
      cases hc : containsSub s.data "name".data with
      | false =>
        simp only [pyContains, hc]
        rw [loads_dumps hwf]
        simp only [pyContains, hc]
      | true =>
        simp only [pyContains, hc]
        rw [hl]
        simp only [pyContains, hc]
    | null =>
      unfold transform_uppercase_name.transform_value
      rw [hl]
      simp only [pyContains]
      rw [hl]
    | bool b =>
      unfold transform_uppercase_name.transform_value
      rw [hl]
      simp only [pyContains]
      rw [hl]
    | num n =>
      unfold transform_uppercase_name.transform_value
      rw [hl]
      simp only [pyContains]
      rw [hl]
    | flt m k =>
      unfold transform_uppercase_name.transform_value
      rw [hl]
      simp only [pyContains]
      rw [hl]
    | nan =>
      unfold transform_uppercase_name.transform_value
      rw [hl]
      simp only [pyContains]
      rw [hl]
    | inf =>
      unfold transform_uppercase_name.transform_value
      rw [hl]
      simp only [pyContains]
      rw [hl]
    | ninf =>
      unfold transform_uppercase_name.transform_value
      rw [hl]
      simp only [pyContains]
      rw [hl]

/-- C1 (amended): `add_timestamp.transform_value` is NOT a pure function of
`(key, value)` alone: its output also depends on the wall-clock reading
(`datetime.utcnow().isoformat()`, modelled as the explicit `now_iso`
parameter). Whenever the value parses as a JSON object, two distinct clock
readings produce distinct outputs. The other three transforms take no such
hidden input in their embeddings, so purity holds for them by construction. -/
theorem claim_C1 (t1 t2 key value : String) (kvs : List (String × Json))
    (hv : loads value = some (Json.obj kvs)) (hne : t1 ≠ t2) :
    add_timestamp.transform_value t1 key value ≠
      add_timestamp.transform_value t2 key value := by
  intro heq
  have hwf : WFj (Json.obj kvs) := loads_WF hv
  unfold add_timestamp.transform_value at heq
  rw [hv] at heq
  simp only [] at heq
  have hwf1 : WFj (Json.obj (insertKV (insertKV kvs "processed_at"
      (Json.str (t1 ++ "Z"))) "transform_version" (Json.str "1.0"))) :=
    WFj_obj_insert (WFj_obj_insert hwf (by simp [WFj]) _) (by simp [WFj]) _
  have hwf2 : WFj (Json.obj (insertKV (insertKV kvs "processed_at"
      (Json.str (t2 ++ "Z"))) "transform_version" (Json.str "1.0"))) :=
    WFj_obj_insert (WFj_obj_insert hwf (by simp [WFj]) _) (by simp [WFj]) _
  have hinj : (Json.obj (insertKV (insertKV kvs "processed_at"
      (Json.str (t1 ++ "Z"))) "transform_version" (Json.str "1.0"))) =
      (Json.obj (insertKV (insertKV kvs "processed_at"
      (Json.str (t2 ++ "Z"))) "transform_version" (Json.str "1.0"))) := by
    have h1 := loads_dumps hwf1
    rw [heq, loads_dumps hwf2] at h1
    exact (Option.some.injEq _ _ ▸ h1).symm
  have hlk := congrArg (fun d => match d with
    | Json.obj l => lookupKV l "processed_at"
    | _ => none) hinj
  simp only [] at hlk
  rw [lookup_insertKV_ne _ (show ("processed_at" : String) ≠ "transform_version" from by decide) _,
      lookup_insertKV_ne _ (show ("processed_at" : String) ≠ "transform_version" from by decide) _,
      lookup_insertKV_self, lookup_insertKV_self] at hlk
  have hstr : t1 ++ "Z" = t2 ++ "Z" := by
    have := Option.some.injEq (Json.str (t1 ++ "Z")) (Json.str (t2 ++ "Z")) ▸ hlk
    exact Json.str.injEq _ _ ▸ this
  have hdata : t1.data ++ "Z".data = t2.data ++ "Z".data := congrArg String.data hstr
  have ht : t1.data = t2.data := by
    have hlen : t1.data.length = t2.data.length := by
      have := congrArg List.length hdata
      simp only [List.length_append] at this
      omega
    exact (List.append_inj_left hdata hlen)
  exact hne (by cases t1; cases t2; simp_all)

/-- C1 counterexample to the original claim: with key and value fixed, two
different clock readings give different outputs of
`add_timestamp.transform_value`, so the output is not a function of
`(key, value)` alone. -/
theorem claim_C1_counterexample :
    add_timestamp.transform_value "2024-01-01T00:00:00" "k" "\x7b\x7d" ≠
      add_timestamp.transform_value "2024-01-02T00:00:00" "k" "\x7b\x7d" := by
  intro h
  have e1 : add_timestamp.transform_value "2024-01-01T00:00:00" "k" "\x7b\x7d" =
      dumps (Json.obj [("processed_at", Json.str "2024-01-01T00:00:00Z"),
        ("transform_version", Json.str "1.0")]) := rfl
  have e2 : add_timestamp.transform_value "2024-01-02T00:00:00" "k" "\x7b\x7d" =
      dumps (Json.obj [("processed_at", Json.str "2024-01-02T00:00:00Z"),
        ("transform_version", Json.str "1.0")]) := rfl
  rw [e1, e2] at h
  have w1 : WFj (Json.obj [("processed_at", Json.str "2024-01-01T00:00:00Z"),
      ("transform_version", Json.str "1.0")]) := by
    simp [WFj, WFm, keysOf]
  have w2 : WFj (Json.obj [("processed_at", Json.str "2024-01-02T00:00:00Z"),
      ("transform_version", Json.str "1.0")]) := by
    simp [WFj, WFm, keysOf]
  have h2 := congrArg loads h
  rw [loads_dumps w1, loads_dumps w2] at h2
  simp at h2

/-- C1 witness: the amended theorem applied at a concrete object value and
two concrete distinct timestamps. -/
theorem claim_C1_witness :
    add_timestamp.transform_value "A" "k" "\x7b\x7d" ≠
      add_timestamp.transform_value "B" "k" "\x7b\x7d" :=
  claim_C1 "A" "B" "k" "\x7b\x7d" [] rfl (by decide)
